import Mathlib

/-!
Verification of the symlink reconciliation engine and dependency-graph
validator of the `settings` repository (scripts/bootstrap/symlinks.py,
scripts/bootstrap/validation.py, scripts/bootstrap.py).

Filesystem model: the engine only ever inspects and mutates whole paths
(the final component); intermediate directories are only created by
`mkdir -p` and tested with `exists`.  We model the filesystem as an
association list from absolute paths (component lists) to nodes
(regular file with content, directory, or symbolic link).  Symlink
resolution follows chains at the final component with loop detection,
matching `Path.resolve(strict=False)`; `exists()`/`is_dir()` follow
symlinks, `is_symlink()` does not, matching `pathlib`.

The ambient clock (`datetime.now()`) is modelled as an oracle
`clock : Nat -> Timestamp` consumed tick by tick; console output
(`typer.echo`) is collected in a list of lines, and a ghost counter
`muts` counts filesystem mutations (rename, unlink, mkdir, symlink
creation) so that "performs zero mutations" is directly expressible.
-/

namespace Settings

/-- An absolute path, as its list of components. -/
abbrev FPath := List String

/-- A filesystem node: regular file (with content), directory, or symlink. -/
inductive Node where
  | file (content : String)
  | dir
  | symlink (dest : FPath)
deriving DecidableEq, Repr

/-- The filesystem: an association list from paths to nodes (first match wins). -/
abbrev FS := List (FPath × Node)

def fsLookup : FS → FPath → Option Node
  | [], _ => none
  | e :: rest, p => if e.1 = p then some e.2 else fsLookup rest p

def fsErase : FS → FPath → FS
  | [], _ => []
  | e :: rest, p => if e.1 = p then fsErase rest p else e :: fsErase rest p

def fsSet (fs : FS) (p : FPath) (n : Node) : FS :=
  (p, n) :: fsErase fs p

/-- `Path.is_symlink()`: the path itself (not followed) is a symlink. -/
def fsIsSymlink (fs : FS) (p : FPath) : Bool :=
  match fsLookup fs p with
  | some (.symlink _) => true
  | _ => false

/-- Follow symlink chains with loop detection, as `os.path.realpath`
(non-strict) does: stop at the first non-symlink, dangling, or
already-seen path. -/
def resolveAux (fs : FS) : Nat → FPath → List FPath → FPath
  | 0, p, _ => p
  | fuel + 1, p, seen =>
    if p ∈ seen then p
    else
      match fsLookup fs p with
      | some (.symlink d) => resolveAux fs fuel d (p :: seen)
      | _ => p

/-- `Path.resolve(strict=False)`.  Fuel `fs.length + 1` is enough: every
step consumes a distinct symlink entry of `fs`. -/
def fsResolve (fs : FS) (p : FPath) : FPath :=
  resolveAux fs (fs.length + 1) p []

/-- `Path.exists()`: follows symlinks; `False` on dangling links and loops. -/
def fsExists (fs : FS) (p : FPath) : Bool :=
  match fsLookup fs (fsResolve fs p) with
  | some (.file _) => true
  | some .dir => true
  | _ => false

/-- `Path.is_dir()`: follows symlinks. -/
def fsIsDir (fs : FS) (p : FPath) : Bool :=
  match fsLookup fs (fsResolve fs p) with
  | some .dir => true
  | _ => false

/-- `datetime.now()` value, as broken-down fields. -/
structure Timestamp where
  year : Nat
  month : Nat
  day : Nat
  hour : Nat
  minute : Nat
  second : Nat
deriving DecidableEq, Repr

/-- Two zero-padded decimal digits, as `strftime` renders in-range fields. -/
def pad2L (n : Nat) : List Char :=
  [Nat.digitChar (n / 10), Nat.digitChar (n % 10)]

/-- Four zero-padded decimal digits, as `strftime("%Y")` renders in-range years. -/
def pad4L (n : Nat) : List Char :=
  [Nat.digitChar (n / 1000), Nat.digitChar (n / 100 % 10),
   Nat.digitChar (n / 10 % 10), Nat.digitChar (n % 10)]

/-- `strftime("%Y%m%d-%H%M%S")`. -/
def fmtTimestamp (t : Timestamp) : String :=
  ⟨pad4L t.year ++ pad2L t.month ++ pad2L t.day ++
    ('-' :: (pad2L t.hour ++ pad2L t.minute ++ pad2L t.second))⟩

/-- The `--mode` enumeration of `symlinks.py`. -/
inductive ReplaceMode where
  | safe
  | backup
  | force
deriving DecidableEq, Repr

/-- A managed entry, as the `LinkItem` dataclass. -/
structure LinkItem where
  key : String
  title : String
  description : String
  source : FPath
  target : FPath
deriving DecidableEq, Repr

/-- Program state threaded through the engine: the filesystem, the clock
position, the echoed output lines, and a ghost mutation counter. -/
structure World where
  fs : FS
  tick : Nat
  out : List String
  muts : Nat
deriving DecidableEq, Repr

/-- `display_path`: path rendering for messages (home-relative rendering
is a cosmetic detail abstracted to plain component joining). -/
def displayPath (p : FPath) : String := String.intercalate "/" p

/-- Left-justified fixed-width field, as Python `f"{s:<n}"`. -/
def padR (s : String) (n : Nat) : String :=
  s ++ String.mk (List.replicate (n - s.length) ' ')

/-- `is_source_present`: `item.source.exists() or item.source.is_symlink()`. -/
def is_source_present (fs : FS) (item : LinkItem) : Bool :=
  fsExists fs item.source || fsIsSymlink fs item.source

/-- `link_target_summary`. -/
def link_target_summary (item : LinkItem) : String :=
  displayPath item.source ++ " -> " ++ displayPath item.target

/-- `status_of` from symlinks.py: classify one entry against the live
filesystem, first match wins. -/
def status_of (fs : FS) (item : LinkItem) : String × String :=
  if !(is_source_present fs item) then ("missing-source", "source missing")
  else if fsIsSymlink fs item.target then
    let target_resolved := fsResolve fs item.target
    if target_resolved = fsResolve fs item.source then
      ("linked", "points to " ++ displayPath target_resolved)
    else if !(fsExists fs item.target) then
      ("broken-link", "points to " ++ displayPath target_resolved)
    else
      ("linked-elsewhere", "points to " ++ displayPath target_resolved)
  else if fsExists fs item.target then
    if fsIsDir fs item.target then ("target-dir", "target is a directory")
    else ("exists", "target exists")
  else ("absent", "target missing")

/-- Parent path, as `Path.parent`. -/
def parentOf (p : FPath) : FPath := p.dropLast

/-- `parent.mkdir(parents=True, exist_ok=True)`: create a directory node at
every missing prefix. -/
def mkdirParents (fs : FS) (p : FPath) : FS :=
  (List.range p.length).foldl
    (fun acc i =>
      let pre := p.take (i + 1)
      match fsLookup acc pre with
      | some _ => acc
      | none => fsSet acc pre .dir)
    fs

/-- `ensure_parent_dir` from symlinks.py. -/
def ensure_parent_dir (w : World) (path : FPath) (dry_run : Bool) : World :=
  let parent := parentOf path
  if fsExists w.fs parent then w
  else if dry_run then
    { w with out := w.out ++ ["DRYRUN  mkdir -p " ++ displayPath parent] }
  else
    { w with fs := mkdirParents w.fs parent, muts := w.muts + 1 }

/-- `backup_path_for`: sibling path `<name>.bak.<timestamp>`; calling it
consumes one clock tick (`datetime.now()`). -/
def backup_path_for (clock : Nat → Timestamp) (w : World) (target : FPath) :
    World × FPath :=
  let timestamp := fmtTimestamp (clock w.tick)
  let name := (target.getLast?).getD ""
  ({ w with tick := w.tick + 1 },
   parentOf target ++ [name ++ ".bak." ++ timestamp])

/-- `target.rename(backup)`: move the direct node (symlinks are moved, not
followed); an existing node at the destination is overwritten. -/
def fsRename (fs : FS) (src dst : FPath) : FS :=
  match fsLookup fs src with
  | some n => fsSet (fsErase fs src) dst n
  | none => fs

/-- Result of `remove_target`: normal return with the optional backup path,
or a raised `typer.Exit(code)`. -/
inductive RStep where
  | ok (w : World) (backup : Option FPath)
  | raise (w : World) (code : Nat)
deriving Repr

/-- `remove_target` from symlinks.py. -/
def remove_target (clock : Nat → Timestamp) (w : World) (target : FPath)
    (mode : ReplaceMode) (dry_run : Bool) : RStep :=
  if !(fsExists w.fs target || fsIsSymlink w.fs target) then .ok w none
  else if fsExists w.fs target && fsIsDir w.fs target && !(fsIsSymlink w.fs target) then
    .raise w 2
  else if mode = ReplaceMode.safe then .ok w none
  else if mode = ReplaceMode.backup then
    let wb := backup_path_for clock w target
    if dry_run then
      .ok { wb.1 with
            out := wb.1.out ++
              ["DRYRUN  mv " ++ displayPath target ++ " " ++ displayPath wb.2] }
        (some wb.2)
    else
      .ok { wb.1 with fs := fsRename wb.1.fs target wb.2, muts := wb.1.muts + 1 }
        (some wb.2)
  else
    if dry_run then
      .ok { w with out := w.out ++ ["DRYRUN  rm " ++ displayPath target] } none
    else
      .ok { w with fs := fsErase w.fs target, muts := w.muts + 1 } none

/-- `create_link` from symlinks.py: ensure the parent directory, then
create the symlink (only ever called at an unoccupied target). -/
def create_link (w : World) (item : LinkItem) (dry_run : Bool) : World :=
  let w1 := ensure_parent_dir w item.target dry_run
  if dry_run then
    { w1 with
      out := w1.out ++
        ["DRYRUN  ln -s " ++ displayPath item.source ++ " " ++
          displayPath item.target] }
  else
    { w1 with fs := fsSet w1.fs item.target (.symlink item.source),
              muts := w1.muts + 1 }

/-- Result of processing one entry in `link_items`: normal completion with
the entry's had-error flag, or a raised `typer.Exit` from `remove_target`. -/
inductive PStep where
  | ok (w : World) (hadError : Bool)
  | raise (w : World) (code : Nat)
deriving Repr

/-- The tail of the loop body after any removal: report the backup (when
one was made and this is not a dry run), create the link, and report
the action taken. -/
def finishLink (w2 : World) (backup : Option FPath) (item : LinkItem)
    (dry_run : Bool) : PStep :=
  let w3 :=
    if backup.isSome && !dry_run then
      { w2 with
        out := w2.out ++
          ["BACKUP  " ++ padR item.key 22 ++ " " ++
            displayPath (backup.getD [])] }
    else w2
  let w4 := create_link w3 item dry_run
  .ok { w4 with
        out := w4.out ++
          [padR (if dry_run then "DRYRUN" else "LINKED") 7 ++ " " ++
            padR item.key 22 ++ " " ++ link_target_summary item] } false

/-- The body of the `for item in items` loop of `link_items`. -/
def processItem (clock : Nat → Timestamp) (mode : ReplaceMode) (dry_run : Bool)
    (w : World) (item : LinkItem) : PStep :=
  let status := (status_of w.fs item).1
  if status = "missing-source" then
    .ok { w with
          out := w.out ++
            ["ERROR   " ++ padR item.key 22 ++ " source missing: " ++
              displayPath item.source] } true
  else if status = "linked" then
    .ok { w with out := w.out ++ ["SKIP    " ++ padR item.key 22 ++ " already linked"] }
      false
  else if status = "target-dir" then
    .ok { w with
          out := w.out ++
            ["ERROR   " ++ padR item.key 22 ++ " target is a directory: " ++
              displayPath item.target] } true
  else if fsExists w.fs item.target || fsIsSymlink w.fs item.target then
    if mode = ReplaceMode.safe then
      .ok { w with
            out := w.out ++
              ["SKIP    " ++ padR item.key 22 ++
                " target exists (use --mode backup/force)"] } false
    else
      match remove_target clock w item.target mode dry_run with
      | .raise w2 c => .raise w2 c
      | .ok w2 backup => finishLink w2 backup item dry_run
  else
    finishLink w none item dry_run

/-- Result of a whole `link_items` run: completed with exit status
(`some 2` when `had_errors`, as `raise typer.Exit(2)`), or aborted
mid-batch by an uncaught raise. -/
inductive RunResult where
  | done (w : World) (exitCode : Option Nat)
  | aborted (w : World) (code : Nat)
deriving Repr

def resultWorld : RunResult → World
  | .done w _ => w
  | .aborted w _ => w

def link_items_go (clock : Nat → Timestamp) (mode : ReplaceMode) (dry_run : Bool) :
    List LinkItem → World → Bool → RunResult
  | [], w, hadErrors => .done w (if hadErrors then some 2 else none)
  | item :: rest, w, hadErrors =>
    match processItem clock mode dry_run w item with
    | .raise w2 c => .aborted w2 c
    | .ok w2 e => link_items_go clock mode dry_run rest w2 (hadErrors || e)

/-- `link_items` from symlinks.py. -/
def link_items (clock : Nat → Timestamp) (mode : ReplaceMode) (dry_run : Bool)
    (items : List LinkItem) (w : World) : RunResult :=
  link_items_go clock mode dry_run items w false

/-- The statuses `link_items` records as fatal for an entry. -/
def isFatal (s : String) : Prop := s = "missing-source" ∨ s = "target-dir"

instance : DecidablePred isFatal := fun s =>
  inferInstanceAs (Decidable (s = "missing-source" ∨ s = "target-dir"))

/-- The world after processing one entry (raises never fire, so the
carried world is taken either way). -/
def stepWorld (clock : Nat → Timestamp) (mode : ReplaceMode) (dry_run : Bool)
    (w : World) (item : LinkItem) : World :=
  match processItem clock mode dry_run w item with
  | .ok w2 _ => w2
  | .raise w2 _ => w2

/-- The world after processing a prefix of the batch, in input order. -/
def worldAfter (clock : Nat → Timestamp) (mode : ReplaceMode) (dry_run : Bool)
    (items : List LinkItem) (w : World) : World :=
  items.foldl (stepWorld clock mode dry_run) w

/-! ### Entry selection (`resolve_items` from symlinks.py) -/

/-- Python `str.strip()`: drop whitespace from both ends (modelled over
the character list so it stays kernel-computable). -/
def pyStrip (s : String) : String :=
  ⟨((s.data.dropWhile Char.isWhitespace).reverse.dropWhile
      Char.isWhitespace).reverse⟩

/-- A single ASCII apostrophe, kept named so error strings can be built
by concatenation. -/
def squote : String := String.mk [Char.ofNat 39]

/-- The dict comprehension `{item.key: item for item in items}`: a later
item with the same key shadows an earlier one. -/
def findByKey (items : List LinkItem) (k : String) : Option LinkItem :=
  items.reverse.find? (fun it => decide (it.key = k))

/-- One step of the `for raw in keys` loop of `resolve_items`, acting on
the accumulated `(chosen, unknown)` lists. -/
def resolveStep (items : List LinkItem) (acc : List LinkItem × List String)
    (raw : String) : List LinkItem × List String :=
  let key := pyStrip raw
  match findByKey items key with
  | some item => if item ∈ acc.1 then acc else (acc.1 ++ [item], acc.2)
  | none => (acc.1, acc.2 ++ [raw])

/-- `", ".join(l)`. -/
def joinComma : List String → String
  | [] => ""
  | [a] => a
  | a :: b :: rest => a ++ ", " ++ joinComma (b :: rest)

/-- `resolve_items` from symlinks.py; `.error` models the raised
`typer.BadParameter`. -/
def resolve_items (items : List LinkItem) (keys : List String) (use_all : Bool) :
    Except String (List LinkItem) :=
  if use_all then .ok items
  else
    let cu := keys.foldl (resolveStep items) ([], [])
    if cu.2.isEmpty then .ok cu.1
    else
      .error ("Unknown target(s): " ++ joinComma cu.2 ++
        ". Use " ++ squote ++ "list" ++ squote ++ " to see options.")

/-! ### Dependency-graph validator (`_extra_validator` of validation.py /
`validate_deps_schema` of bootstrap.py) -/

/-- A dependency check entry (label plus its `depends` list); the schema
guarantees `label` is present on every entry. -/
structure Check where
  label : String
  depends : List String
deriving DecidableEq, Repr

/-- The set of declared labels (list membership models Python set
membership). -/
def allLabels (checks : List Check) : List String := checks.map (·.label)

/-- The error string `f"checks[{i}].depends: unknown label '{dep}'"`. -/
def unknownLabelError (i : Nat) (dep : String) : String :=
  "checks[" ++ toString i ++ "].depends: unknown label " ++ squote ++ dep ++ squote

/-- The unknown-label pass: one error per `depends` entry that is not a
declared label, in scan order. -/
def unknownErrors (checks : List Check) : List String :=
  checks.enum.flatMap
    (fun ic =>
      (ic.2.depends.filter (fun d => !((allLabels checks).contains d))).map
        (unknownLabelError ic.1))

/-- `in_degree`: insertion-ordered association list keyed by label, with
`Int` values exactly as Python integers. -/
abbrev DegMap := List (String × Int)

/-- `dependents`: insertion-ordered association list label → dependents. -/
abbrev DepMap := List (String × List String)

def degKeys (m : DegMap) : List String := m.map (·.1)

def degLookup : DegMap → String → Option Int
  | [], _ => none
  | p :: m, k => if p.1 = k then some p.2 else degLookup m k

/-- `in_degree.setdefault(k, 0)`. -/
def degSetdefault (m : DegMap) (k : String) : DegMap :=
  if (degLookup m k).isSome then m else m ++ [(k, 0)]

/-- `in_degree[k] += d` on a `defaultdict(int)`. -/
def degAdd (m : DegMap) (k : String) (d : Int) : DegMap :=
  if (degLookup m k).isSome then
    m.map (fun p => if p.1 = k then (p.1, p.2 + d) else p)
  else m ++ [(k, d)]

def depLookup : DepMap → String → Option (List String)
  | [], _ => none
  | p :: m, k => if p.1 = k then some p.2 else depLookup m k

/-- `dependents[k].append(v)` on a `defaultdict(list)`. -/
def depAppend (m : DepMap) (k v : String) : DepMap :=
  if (depLookup m k).isSome then
    m.map (fun p => if p.1 = k then (p.1, p.2 ++ [v]) else p)
  else m ++ [(k, [v])]

def depGet (m : DepMap) (k : String) : List String :=
  (depLookup m k).getD []

/-- One edge insertion of the graph-building loop: for a `depends` entry
that is a declared label, record the edge dep → label. -/
def buildEdgeStep (checks : List Check) (lbl : String) (acc : DegMap × DepMap)
    (d : String) : DegMap × DepMap :=
  if d ∈ allLabels checks then (degAdd acc.1 lbl 1, depAppend acc.2 d lbl)
  else acc

/-- One item of the graph-building loop: seed the item's label with
in-degree 0, then process its `depends` list. -/
def buildItemStep (checks : List Check) (acc : DegMap × DepMap) (c : Check) :
    DegMap × DepMap :=
  c.depends.foldl (buildEdgeStep checks c.label)
    (degSetdefault acc.1 c.label, acc.2)

/-- The graph-building loop: seed every label with in-degree 0, then for
every `depends` entry that is a declared label add one edge dep → label. -/
def buildGraph (checks : List Check) : DegMap × DepMap :=
  checks.foldl (buildItemStep checks) ([], [])

/-- One decrement of Kahn's algorithm: `in_degree[child] -= 1`, enqueueing
the child when its in-degree reaches zero. -/
def kahnChildStep (p : DegMap × List String) (child : String) :
    DegMap × List String :=
  let deg2 := degAdd p.1 child (-1)
  if (degLookup deg2 child).getD 0 = 0 then (deg2, p.2 ++ [child])
  else (deg2, p.2)

/-- The `while queue` loop of Kahn's algorithm.  The source keeps only a
visited counter; we keep the visited labels themselves (the counter is
their number). -/
def kahnLoop (dep : DepMap) : Nat → List String → DegMap → List String →
    List String × DegMap
  | 0, _, deg, visited => (visited, deg)
  | _ + 1, [], deg, visited => (visited, deg)
  | fuel + 1, node :: queue, deg, visited =>
    let step := (depGet dep node).foldl kahnChildStep (deg, queue)
    kahnLoop dep fuel step.2 step.1 (visited ++ [node])

def graphDeg (checks : List Check) : DegMap := (buildGraph checks).1

def graphDep (checks : List Check) : DepMap := (buildGraph checks).2

/-- The seed queue: all labels of in-degree 0, in insertion order. -/
def initQueue (checks : List Check) : List String :=
  ((graphDeg checks).filter (fun p => decide (p.2 = 0))).map (·.1)

def kahnRun (checks : List Check) : List String × DegMap :=
  kahnLoop (graphDep checks) ((graphDeg checks).length + 1) (initQueue checks)
    (graphDeg checks) []

/-- The labels visited by Kahn's algorithm (their count is the source's
`visited` counter). -/
def visitedLabels (checks : List Check) : List String := (kahnRun checks).1

/-- Lexicographic comparison of character lists by code point, as Python
compares strings. -/
def charListLe : List Char → List Char → Bool
  | [], _ => true
  | _ :: _, [] => false
  | a :: as, b :: bs =>
    if a.val < b.val then true
    else if b.val < a.val then false
    else charListLe as bs

def strLeB (a b : String) : Bool := charListLe a.data b.data

/-- Stable insertion used by `sortStrings`. -/
def insertSorted (a : String) : List String → List String
  | [] => [a]
  | b :: r => if strLeB a b then a :: b :: r else b :: insertSorted a r

/-- `sorted(...)` over strings, lexicographic by code point. -/
def sortStrings : List String → List String
  | [] => []
  | a :: r => insertSorted a (sortStrings r)

/-- `f"dependency cycle detected among: {', '.join(members)}"`. -/
def cycleError (members : List String) : String :=
  "dependency cycle detected among: " ++ String.intercalate ", " members

/-- The semantic validation pass over the checks (label-reference
integrity plus cycle detection), as `_extra_validator`. -/
def validateGraph (checks : List Check) : List String :=
  let errs := unknownErrors checks
  let run := kahnRun checks
  if run.1.length < (graphDeg checks).length then
    errs ++
      [cycleError (sortStrings
        (((run.2).filter (fun p => decide (0 < p.2))).map (·.1)))]
  else errs

/-! ### Basic filesystem lemmas -/

theorem fsLookup_fsErase (fs : FS) (p q : FPath) :
    fsLookup (fsErase fs p) q = if q = p then none else fsLookup fs q := by
  induction fs with
  | nil => simp [fsErase, fsLookup]
  | cons e rest ih =>
    by_cases hep : e.1 = p <;> by_cases heq : e.1 = q <;>
      simp_all [fsErase, fsLookup]

theorem fsLookup_fsSet (fs : FS) (p q : FPath) (n : Node) :
    fsLookup (fsSet fs p n) q = if q = p then some n else fsLookup fs q := by
  by_cases hqp : q = p
  · simp [fsSet, fsLookup, hqp]
  · have hpq : ¬ p = q := fun h => hqp h.symm
    simp [fsSet, fsLookup, hqp, hpq, fsLookup_fsErase]

theorem fsResolve_eq_self (fs : FS) (p : FPath)
    (h : ∀ d, fsLookup fs p ≠ some (.symlink d)) : fsResolve fs p = p := by
  unfold fsResolve resolveAux
  cases hl : fsLookup fs p with
  | none => simp [hl]
  | some n =>
    cases n with
    | file c => simp [hl]
    | dir => simp [hl]
    | symlink d => exact absurd hl (h d)

theorem fsExists_of_lookup_file (fs : FS) (p : FPath) (c : String)
    (h : fsLookup fs p = some (.file c)) : fsExists fs p = true := by
  have hr : fsResolve fs p = p := fsResolve_eq_self fs p (by simp [h])
  simp [fsExists, hr, h]

theorem fsExists_of_lookup_dir (fs : FS) (p : FPath)
    (h : fsLookup fs p = some .dir) : fsExists fs p = true := by
  have hr : fsResolve fs p = p := fsResolve_eq_self fs p (by simp [h])
  simp [fsExists, hr, h]

theorem fsIsDir_of_lookup_dir (fs : FS) (p : FPath)
    (h : fsLookup fs p = some .dir) : fsIsDir fs p = true := by
  have hr : fsResolve fs p = p := fsResolve_eq_self fs p (by simp [h])
  simp [fsIsDir, hr, h]

theorem fsIsDir_of_lookup_file (fs : FS) (p : FPath) (c : String)
    (h : fsLookup fs p = some (.file c)) : fsIsDir fs p = false := by
  have hr : fsResolve fs p = p := fsResolve_eq_self fs p (by simp [h])
  simp [fsIsDir, hr, h]

theorem fsIsSymlink_of_lookup_file (fs : FS) (p : FPath) (c : String)
    (h : fsLookup fs p = some (.file c)) : fsIsSymlink fs p = false := by
  simp [fsIsSymlink, h]

theorem fsIsSymlink_of_lookup_dir (fs : FS) (p : FPath)
    (h : fsLookup fs p = some .dir) : fsIsSymlink fs p = false := by
  simp [fsIsSymlink, h]

/-- An unoccupied path (`not exists and not is_symlink`) has no node at all. -/
theorem lookup_none_of_not_occupied (fs : FS) (p : FPath)
    (h : (fsExists fs p || fsIsSymlink fs p) = false) : fsLookup fs p = none := by
  cases hl : fsLookup fs p with
  | none => rfl
  | some n =>
    cases n with
    | file c => simp [fsExists_of_lookup_file fs p c hl] at h
    | dir => simp [fsExists_of_lookup_dir fs p hl] at h
    | symlink d => simp [fsIsSymlink, hl] at h

/-- `mkdir -p` never changes an existing node. -/
theorem mkdirParents_preserves_some (fs : FS) (p q : FPath) (n : Node)
    (h : fsLookup fs q = some n) :
    fsLookup (mkdirParents fs p) q = some n := by
  unfold mkdirParents
  generalize List.range p.length = l
  induction l generalizing fs with
  | nil => simpa
  | cons i rest ih =>
    simp only [List.foldl]
    cases hl : fsLookup fs (p.take (i + 1)) with
    | some m => simp only [hl]; exact ih fs h
    | none =>
      simp only [hl]
      apply ih
      rw [fsLookup_fsSet]
      have hq : ¬ q = p.take (i + 1) := fun he => by
        rw [he, hl] at h; exact Option.noConfusion h
      simp [hq, h]

/-- If the entry's status is not `missing-source`, the source is present. -/
theorem source_present_of_not_missing (fs : FS) (item : LinkItem)
    (h : (status_of fs item).1 ≠ "missing-source") :
    is_source_present fs item = true := by
  cases hp : is_source_present fs item with
  | true => rfl
  | false => exact absurd (by simp [status_of, hp]) h

/-- A real directory target (existing, directory, not a symlink) with a
present source classifies as `target-dir`. -/
theorem status_of_real_dir (fs : FS) (item : LinkItem)
    (hp : is_source_present fs item = true)
    (hex : fsExists fs item.target = true)
    (hdir : fsIsDir fs item.target = true)
    (hsym : fsIsSymlink fs item.target = false) :
    status_of fs item = ("target-dir", "target is a directory") := by
  simp [status_of, hp, hex, hdir, hsym]

/-- `remove_target` completes normally whenever the target is not a real
directory; it only writes output, and under dry-run touches neither the
filesystem nor the mutation counter. -/
theorem remove_target_spec (clock : Nat → Timestamp) (w : World) (target : FPath)
    (mode : ReplaceMode) (dry : Bool)
    (hne : ¬(fsExists w.fs target = true ∧ fsIsDir w.fs target = true ∧
      fsIsSymlink w.fs target = false)) :
    ∃ w2 b, remove_target clock w target mode dry = .ok w2 b ∧
      (∃ ls, w2.out = w.out ++ ls) ∧
      (dry = true → w2.fs = w.fs ∧ w2.muts = w.muts) := by
  unfold remove_target
  split
  · exact ⟨w, none, rfl, ⟨[], by simp⟩, fun _ => ⟨rfl, rfl⟩⟩
  · split
    · next hc =>
      exfalso
      apply hne
      cases h1 : fsExists w.fs target <;> cases h2 : fsIsDir w.fs target <;>
        cases h3 : fsIsSymlink w.fs target <;> simp_all
    · split
      · exact ⟨w, none, rfl, ⟨[], by simp⟩, fun _ => ⟨rfl, rfl⟩⟩
      · split
        · cases dry with
          | true =>
            exact ⟨_, _, rfl, ⟨_, rfl⟩, fun _ => ⟨rfl, rfl⟩⟩
          | false =>
            exact ⟨_, _, rfl, ⟨[], by simp [backup_path_for]⟩,
              fun h => nomatch h⟩
        · cases dry with
          | true => exact ⟨_, _, rfl, ⟨_, rfl⟩, fun _ => ⟨rfl, rfl⟩⟩
          | false => exact ⟨_, _, rfl, ⟨[], by simp⟩, fun h => nomatch h⟩

/-- `create_link` only appends to the output. -/
theorem create_link_out (w : World) (item : LinkItem) (dry : Bool) :
    ∃ ls, (create_link w item dry).out = w.out ++ ls := by
  unfold create_link ensure_parent_dir
  by_cases hpe : fsExists w.fs (parentOf item.target) = true
  · cases dry with
    | true =>
      exact ⟨["DRYRUN  ln -s " ++ displayPath item.source ++ " " ++
        displayPath item.target], by simp [hpe]⟩
    | false => exact ⟨[], by simp [hpe]⟩
  · cases dry with
    | true =>
      refine ⟨["DRYRUN  mkdir -p " ++ displayPath (parentOf item.target),
        "DRYRUN  ln -s " ++ displayPath item.source ++ " " ++
          displayPath item.target], ?_⟩
      simp [hpe]
    | false => exact ⟨[], by simp [hpe]⟩

/-- `create_link` leaves the clock position alone. -/
theorem create_link_tick (w : World) (item : LinkItem) (dry : Bool) :
    (create_link w item dry).tick = w.tick := by
  unfold create_link ensure_parent_dir
  by_cases hpe : fsExists w.fs (parentOf item.target) = true <;>
    cases dry <;> simp [hpe]

/-- Under dry-run, `create_link` touches neither the filesystem nor the
mutation counter. -/
theorem create_link_dry_pure (w : World) (item : LinkItem) :
    (create_link w item true).fs = w.fs ∧
    (create_link w item true).muts = w.muts := by
  unfold create_link ensure_parent_dir
  by_cases hpe : fsExists w.fs (parentOf item.target) = true <;> simp [hpe]

/-- After a real `create_link`, the target carries a symlink to the source. -/
theorem create_link_target_lookup (w : World) (item : LinkItem) :
    fsLookup (create_link w item false).fs item.target =
      some (.symlink item.source) := by
  unfold create_link ensure_parent_dir
  by_cases hpe : fsExists w.fs (parentOf item.target) = true <;>
    simp [hpe, fsLookup_fsSet]

/-- `create_link` never changes an existing node at another path. -/
theorem create_link_preserves_some (w : World) (item : LinkItem) (dry : Bool)
    (q : FPath) (n : Node) (h : fsLookup w.fs q = some n)
    (hq : ¬ q = item.target) :
    fsLookup (create_link w item dry).fs q = some n := by
  unfold create_link ensure_parent_dir
  by_cases hpe : fsExists w.fs (parentOf item.target) = true
  · cases dry with
    | true => simpa [hpe] using h
    | false =>
      simp only [hpe, if_true, Bool.false_eq_true, if_false]
      rw [fsLookup_fsSet]
      simp [hq, h]
  · cases dry with
    | true => simpa [hpe] using h
    | false =>
      simp only [hpe, Bool.false_eq_true, if_false]
      rw [fsLookup_fsSet]
      simp only [hq, if_false]
      exact mkdirParents_preserves_some _ _ _ _ h

/-- Facts about the common action tail `finishLink`. -/
theorem finishLink_spec (w2 : World) (b : Option FPath) (item : LinkItem)
    (dry : Bool) :
    ∃ w4, finishLink w2 b item dry = .ok w4 false ∧
      (∃ ls, ls ≠ [] ∧ w4.out = w2.out ++ ls) ∧
      (dry = true → w4.fs = w2.fs ∧ w4.muts = w2.muts) ∧
      (dry = false →
        fsLookup w4.fs item.target = some (.symlink item.source)) ∧
      (∀ q n, fsLookup w2.fs q = some n → ¬ q = item.target →
        fsLookup w4.fs q = some n) := by
  unfold finishLink
  by_cases hb : (b.isSome && !dry) = true
  · rw [if_pos hb]
    set w3 : World :=
      { w2 with
        out := w2.out ++
          ["BACKUP  " ++ padR item.key 22 ++ " " ++ displayPath (b.getD [])] }
      with hw3
    obtain ⟨ls4, hout4⟩ := create_link_out w3 item dry
    refine ⟨_, rfl, ?_, ?_, ?_, ?_⟩
    · refine ⟨["BACKUP  " ++ padR item.key 22 ++ " " ++ displayPath (b.getD [])] ++
        ls4 ++ [padR (if dry then "DRYRUN" else "LINKED") 7 ++ " " ++
          padR item.key 22 ++ " " ++ link_target_summary item], by simp, ?_⟩
      simp only [hout4, hw3]
      simp
    · intro hd
      subst hd
      simp at hb
    · intro hd
      subst hd
      exact create_link_target_lookup w3 item
    · intro q n h hq
      exact create_link_preserves_some w3 item dry q n h hq
  · rw [if_neg hb]
    obtain ⟨ls4, hout4⟩ := create_link_out w2 item dry
    refine ⟨_, rfl, ?_, ?_, ?_, ?_⟩
    · refine ⟨ls4 ++ [padR (if dry then "DRYRUN" else "LINKED") 7 ++ " " ++
        padR item.key 22 ++ " " ++ link_target_summary item], by simp, ?_⟩
      simp [hout4]
    · intro hd
      subst hd
      exact create_link_dry_pure w2 item
    · intro hd
      subst hd
      exact create_link_target_lookup w2 item
    · intro q n h hq
      exact create_link_preserves_some w2 item dry q n h hq

/-- Master specification of one loop iteration of `link_items`: it never
raises, it only appends output, its error flag is exactly "status is
fatal", a dry run leaves fs and mutation count alone, safe mode
preserves every existing node, and a no-op status (fatal, linked, or
occupied-under-safe) leaves the whole state except output alone. -/
theorem processItem_spec (clock : Nat → Timestamp) (mode : ReplaceMode)
    (dry : Bool) (w : World) (item : LinkItem) :
    ∃ w1 e1, processItem clock mode dry w item = .ok w1 e1 ∧
      (∃ ls, ls ≠ [] ∧ w1.out = w.out ++ ls) ∧
      (e1 = true ↔ isFatal (status_of w.fs item).1) ∧
      (dry = true → w1.fs = w.fs ∧ w1.muts = w.muts) ∧
      (mode = ReplaceMode.safe → ∀ p n, fsLookup w.fs p = some n →
        fsLookup w1.fs p = some n) ∧
      ((isFatal (status_of w.fs item).1 ∨ (status_of w.fs item).1 = "linked" ∨
          (mode = ReplaceMode.safe ∧
            (fsExists w.fs item.target || fsIsSymlink w.fs item.target) = true)) →
        w1.fs = w.fs ∧ w1.muts = w.muts ∧ w1.tick = w.tick) := by
  unfold processItem
  by_cases h1 : (status_of w.fs item).1 = "missing-source"
  · rw [if_pos h1]
    exact ⟨_, _, rfl, ⟨_, by simp, rfl⟩, by simp [isFatal, h1],
      fun _ => ⟨rfl, rfl⟩, fun _ _ _ h => h, fun _ => ⟨rfl, rfl, rfl⟩⟩
  · rw [if_neg h1]
    by_cases h2 : (status_of w.fs item).1 = "linked"
    · rw [if_pos h2]
      refine ⟨_, _, rfl, ⟨_, by simp, rfl⟩, ?_, fun _ => ⟨rfl, rfl⟩,
        fun _ _ _ h => h, fun _ => ⟨rfl, rfl, rfl⟩⟩
      simp [isFatal, h1, h2, h2 ▸ (by decide : ¬("linked" = "target-dir"))]
    · rw [if_neg h2]
      by_cases h3 : (status_of w.fs item).1 = "target-dir"
      · rw [if_pos h3]
        exact ⟨_, _, rfl, ⟨_, by simp, rfl⟩, by simp [isFatal, h3],
          fun _ => ⟨rfl, rfl⟩, fun _ _ _ h => h, fun _ => ⟨rfl, rfl, rfl⟩⟩
      · rw [if_neg h3]
        have hnf : ¬ isFatal (status_of w.fs item).1 := by
          intro h; rcases h with h | h <;> [exact h1 h; exact h3 h]
        by_cases hocc : (fsExists w.fs item.target || fsIsSymlink w.fs item.target) = true
        · rw [if_pos hocc]
          by_cases hsafe : mode = ReplaceMode.safe
          · rw [if_pos hsafe]
            exact ⟨_, _, rfl, ⟨_, by simp, rfl⟩, by simp [hnf],
              fun _ => ⟨rfl, rfl⟩, fun _ _ _ h => h, fun _ => ⟨rfl, rfl, rfl⟩⟩
          · rw [if_neg hsafe]
            have hne : ¬(fsExists w.fs item.target = true ∧
                fsIsDir w.fs item.target = true ∧
                fsIsSymlink w.fs item.target = false) := by
              rintro ⟨hex, hdir, hsym⟩
              exact h3 (by
                rw [status_of_real_dir w.fs item
                  (source_present_of_not_missing w.fs item h1) hex hdir hsym])
            obtain ⟨w2, b, heq, ⟨ls2, hout2⟩, hdry2⟩ :=
              remove_target_spec clock w item.target mode dry hne
            rw [heq]
            obtain ⟨w4, heq4, ⟨ls4, hls4, hout4⟩, hdry4, _, _⟩ :=
              finishLink_spec w2 b item dry
            refine ⟨w4, false, heq4, ⟨ls2 ++ ls4, by simp [hls4], ?_⟩,
              by simp [hnf], ?_, fun hs => absurd hs hsafe, ?_⟩
            · rw [hout4, hout2, List.append_assoc]
            · intro hd
              obtain ⟨ha, hb⟩ := hdry4 hd
              obtain ⟨hc, he⟩ := hdry2 hd
              exact ⟨ha.trans hc, hb.trans he⟩
            · rintro (h | h | ⟨hs, _⟩)
              · exact absurd h hnf
              · exact absurd h h2
              · exact absurd hs hsafe
        · rw [if_neg hocc]
          obtain ⟨w4, heq4, ⟨ls4, hls4, hout4⟩, hdry4, _, hpres⟩ :=
            finishLink_spec w none item dry
          refine ⟨w4, false, heq4, ⟨ls4, hls4, hout4⟩, by simp [hnf], hdry4,
            ?_, ?_⟩
          · intro _ p n h
            by_cases hp : p = item.target
            · rw [hp] at h
              rw [lookup_none_of_not_occupied w.fs item.target
                (by revert hocc; cases fsExists w.fs item.target ||
                  fsIsSymlink w.fs item.target <;> simp)] at h
              exact Option.noConfusion h
            · exact hpres p n h hp
          · rintro (h | h | ⟨_, ho⟩)
            · exact absurd h hnf
            · exact absurd h h2
            · exact absurd ho hocc

/-! ### Claim C1: the classification decision order -/

/-- Claim C1: `status_of` applies the spec's decision order with first
match winning: missing source first; then the symlink cases (equal
resolution → linked, dangling → broken-link, otherwise
linked-elsewhere); then existing directory → target-dir; then existing
file → exists; else absent. -/
theorem status_of_decision_order (fs : FS) (item : LinkItem) :
    (is_source_present fs item = false →
      status_of fs item = ("missing-source", "source missing")) ∧
    (is_source_present fs item = true → fsIsSymlink fs item.target = true →
      ((fsResolve fs item.target = fsResolve fs item.source →
          (status_of fs item).1 = "linked") ∧
       (fsResolve fs item.target ≠ fsResolve fs item.source →
          fsExists fs item.target = false →
          (status_of fs item).1 = "broken-link") ∧
       (fsResolve fs item.target ≠ fsResolve fs item.source →
          fsExists fs item.target = true →
          (status_of fs item).1 = "linked-elsewhere"))) ∧
    (is_source_present fs item = true → fsIsSymlink fs item.target = false →
      fsExists fs item.target = true → fsIsDir fs item.target = true →
      status_of fs item = ("target-dir", "target is a directory")) ∧
    (is_source_present fs item = true → fsIsSymlink fs item.target = false →
      fsExists fs item.target = true → fsIsDir fs item.target = false →
      status_of fs item = ("exists", "target exists")) ∧
    (is_source_present fs item = true → fsIsSymlink fs item.target = false →
      fsExists fs item.target = false →
      status_of fs item = ("absent", "target missing")) := by
  refine ⟨fun h1 => ?_, fun h1 h2 => ⟨fun h3 => ?_, fun h3 h4 => ?_, fun h3 h4 => ?_⟩,
    fun h1 h2 h3 h4 => ?_, fun h1 h2 h3 h4 => ?_, fun h1 h2 h3 => ?_⟩ <;>
    simp [status_of, *]

/-- Witness for C1 at concrete filesystems covering three branches. -/
theorem status_of_decision_order_witness :
    status_of ([] : FS) ⟨"k", "k", "", ["r", "s"], ["h", "t"]⟩ =
        ("missing-source", "source missing") ∧
    status_of [(["r", "s"], .file "x"), (["h", "t"], .file "y")]
        ⟨"k", "k", "", ["r", "s"], ["h", "t"]⟩ = ("exists", "target exists") ∧
    status_of [(["r", "s"], .file "x"), (["h", "t"], .dir)]
        ⟨"k", "k", "", ["r", "s"], ["h", "t"]⟩ =
        ("target-dir", "target is a directory") :=
  ⟨(status_of_decision_order _ _).1 (by decide),
   (status_of_decision_order [(["r", "s"], .file "x"), (["h", "t"], .file "y")]
      ⟨"k", "k", "", ["r", "s"], ["h", "t"]⟩).2.2.2.1 (by decide) (by decide)
      (by decide) (by decide),
   (status_of_decision_order [(["r", "s"], .file "x"), (["h", "t"], .dir)]
      ⟨"k", "k", "", ["r", "s"], ["h", "t"]⟩).2.2.1 (by decide) (by decide)
      (by decide) (by decide)⟩

/-! ### Batch-level facts about `link_items` -/

/-- Batch specification: a `link_items` run always completes (never
aborts), emits at least one line per entry, is pure under dry-run,
preserves every existing node under safe mode, and exits with 2 exactly
when the accumulated error flag or some entry's status at its processing
moment was fatal. -/
theorem link_items_go_spec (clock : Nat → Timestamp) (mode : ReplaceMode)
    (dry : Bool) (items : List LinkItem) : ∀ (w : World) (b : Bool),
    ∃ w' e, link_items_go clock mode dry items w b = .done w' e ∧
      w'.out.length ≥ w.out.length + items.length ∧
      (dry = true → w'.fs = w.fs ∧ w'.muts = w.muts) ∧
      (mode = ReplaceMode.safe → ∀ p n, fsLookup w.fs p = some n →
        fsLookup w'.fs p = some n) ∧
      (e = some 2 ∨ e = none) ∧
      (e = some 2 ↔ (b = true ∨ ∃ i, ∃ h : i < items.length,
        isFatal ((status_of (worldAfter clock mode dry (items.take i) w).fs
          (items.get ⟨i, h⟩)).1))) := by
  induction items with
  | nil =>
    intro w b
    refine ⟨w, if b then some 2 else none, rfl, by simp, fun _ => ⟨rfl, rfl⟩,
      fun _ _ _ h => h, by cases b <;> simp, ?_⟩
    cases b <;> simp
  | cons item rest ih =>
    intro w b
    obtain ⟨w1, e1, hp, ⟨ls, hls, hout⟩, herr, hdryp, hsafep, _⟩ :=
      processItem_spec clock mode dry w item
    obtain ⟨w', e, hgo, hlen, hdry2, hsafe2, hshape, hiff⟩ := ih w1 (b || e1)
    have hstep : stepWorld clock mode dry w item = w1 := by
      unfold stepWorld; rw [hp]
    refine ⟨w', e, ?_, ?_, ?_, ?_, hshape, ?_⟩
    · show link_items_go clock mode dry (item :: rest) w b = .done w' e
      unfold link_items_go
      rw [hp]
      exact hgo
    · have h1 : w1.out.length = w.out.length + ls.length := by
        rw [hout]; simp
      have h2 : 0 < ls.length := List.length_pos.mpr hls
      simp only [List.length_cons]
      omega
    · intro hd
      obtain ⟨ha, hb2⟩ := hdry2 hd
      obtain ⟨hc, hd2⟩ := hdryp hd
      exact ⟨ha.trans hc, hb2.trans hd2⟩
    · intro hs p n h
      exact hsafe2 hs p n (hsafep hs p n h)
    · rw [hiff]
      constructor
      · rintro (hbe | ⟨i, hi, hf⟩)
        · rw [Bool.or_eq_true] at hbe
          rcases hbe with hb | he1
          · exact Or.inl hb
          · refine Or.inr ⟨0, Nat.succ_pos _, ?_⟩
            simpa [worldAfter] using herr.mp he1
        · refine Or.inr ⟨i + 1, Nat.succ_lt_succ hi, ?_⟩
          simpa [worldAfter, hstep] using hf
      · rintro (hb | ⟨i, hi, hf⟩)
        · exact Or.inl (by simp [hb])
        · cases i with
          | zero =>
            refine Or.inl ?_
            rw [Bool.or_eq_true]
            exact Or.inr (herr.mpr (by simpa [worldAfter] using hf))
          | succ j =>
            refine Or.inr ⟨j, Nat.lt_of_succ_lt_succ hi, ?_⟩
            simpa [worldAfter, hstep] using hf

/-! ### Claim C3: dry-run purity -/

/-- Claim C3: with `dry_run=True`, `link_items` performs no filesystem
mutation at all — the filesystem and the mutation counter are unchanged,
the run completes normally, and every entry's classification is
identical before and after the call. -/
theorem dry_run_purity (clock : Nat → Timestamp) (mode : ReplaceMode)
    (items : List LinkItem) (w : World) :
    ∃ w' e, link_items clock mode true items w = .done w' e ∧
      w'.fs = w.fs ∧ w'.muts = w.muts ∧
      ∀ item, status_of w'.fs item = status_of w.fs item := by
  obtain ⟨w', e, hgo, _, hdry, _, _, _⟩ :=
    link_items_go_spec clock mode true items w false
  exact ⟨w', e, hgo, (hdry rfl).1, (hdry rfl).2,
    fun it => by rw [(hdry rfl).1]⟩

/-! ### Claim C7: batch aggregation -/

/-- Claim C7: `link_items` processes every entry of the batch to
completion (it never aborts, and emits at least one report line per
entry), and the overall result is a failure (exit code 2) exactly when
at least one entry's status at its processing moment was fatal
(`missing-source` or `target-dir`). -/
theorem batch_aggregation (clock : Nat → Timestamp) (mode : ReplaceMode)
    (dry : Bool) (items : List LinkItem) (w : World) :
    ∃ w' e, link_items clock mode dry items w = .done w' e ∧
      w'.out.length ≥ w.out.length + items.length ∧
      (e = some 2 ∨ e = none) ∧
      (e = some 2 ↔ ∃ i, ∃ h : i < items.length,
        isFatal ((status_of (worldAfter clock mode dry (items.take i) w).fs
          (items.get ⟨i, h⟩)).1)) := by
  obtain ⟨w', e, hgo, hlen, _, _, hshape, hiff⟩ :=
    link_items_go_spec clock mode dry items w false
  refine ⟨w', e, hgo, hlen, hshape, ?_⟩
  rw [hiff]
  simp

/-! ### Claim C2: idempotence -/

/-- A status on which `link_items` performs no filesystem action for the
given mode: a fatal status, an already-correct link, or an occupied
target under safe mode. -/
def noopStatus (fs : FS) (mode : ReplaceMode) (item : LinkItem) : Prop :=
  isFatal (status_of fs item).1 ∨ (status_of fs item).1 = "linked" ∨
    (mode = ReplaceMode.safe ∧
      (fsExists fs item.target || fsIsSymlink fs item.target) = true)

instance (fs : FS) (mode : ReplaceMode) (item : LinkItem) :
    Decidable (noopStatus fs mode item) := by
  unfold noopStatus isFatal
  infer_instance

/-- A batch whose entries all have no-op statuses runs without touching
the filesystem, the clock, or the mutation counter. -/
theorem link_items_noop_run (clock : Nat → Timestamp) (mode : ReplaceMode)
    (dry : Bool) (items : List LinkItem) : ∀ (w : World) (b : Bool),
    (∀ item ∈ items, noopStatus w.fs mode item) →
    ∃ w' e, link_items_go clock mode dry items w b = .done w' e ∧
      w'.fs = w.fs ∧ w'.muts = w.muts ∧ w'.tick = w.tick := by
  induction items with
  | nil => exact fun w b _ => ⟨w, _, rfl, rfl, rfl, rfl⟩
  | cons item rest ih =>
    intro w b hno
    obtain ⟨w1, e1, hp, _, _, _, _, hnoop⟩ :=
      processItem_spec clock mode dry w item
    have h1 := hnoop (hno item (List.mem_cons_self _ _))
    obtain ⟨w', e, hgo, ha, hb2, hc⟩ := ih w1 (b || e1) (by
      intro it hit
      unfold noopStatus
      rw [h1.1]
      exact hno it (List.mem_cons_of_mem _ hit))
    refine ⟨w', e, ?_, ha.trans h1.1, hb2.trans h1.2.1, hc.trans h1.2.2⟩
    unfold link_items_go
    rw [hp]
    exact hgo

/-- Claim C2 (amended): when after the first run every entry of the batch
classifies as a no-op for the chosen policy (as happens for
non-interfering batches, where every successfully linked entry
classifies as `linked`), the second `link_items` run completes as a pure
per-entry no-op: the final filesystem equals the state after the first
run and no further mutation is performed. -/
theorem apply_idempotent_of_noop (clock clock2 : Nat → Timestamp)
    (mode : ReplaceMode) (items : List LinkItem) (w0 w1 : World) (e1 : Option Nat)
    (h1 : link_items clock mode false items w0 = .done w1 e1)
    (hnoop : ∀ item ∈ items, noopStatus w1.fs mode item) :
    ∃ w2 e2, link_items clock2 mode false items w1 = .done w2 e2 ∧
      w2.fs = w1.fs ∧ w2.muts = w1.muts := by
  obtain ⟨w2, e2, hgo, ha, hb, _⟩ :=
    link_items_noop_run clock2 mode false items w1 false hnoop
  exact ⟨w2, e2, hgo, ha, hb⟩

def idemClock : Nat → Timestamp := fun _ => ⟨2025, 1, 1, 0, 0, 0⟩

def idemItem : LinkItem := ⟨"k", "k", "", ["r", "s"], ["h", "t"]⟩

def idemW0 : World := ⟨[(["r", "s"], .file "x"), (["h"], .dir)], 0, [], 0⟩

def idemW1 : World :=
  resultWorld (link_items idemClock ReplaceMode.safe false [idemItem] idemW0)

/-- Witness for the amended C2 at a concrete one-entry batch that the
first run links successfully. -/
theorem apply_idempotent_of_noop_witness :
    ∃ w2 e2, link_items idemClock ReplaceMode.safe false [idemItem] idemW1 =
        .done w2 e2 ∧ w2.fs = idemW1.fs ∧ w2.muts = idemW1.muts :=
  apply_idempotent_of_noop idemClock idemClock ReplaceMode.safe [idemItem]
    idemW0 idemW1 none rfl (by decide)

def cexClock : Nat → Timestamp := fun _ => ⟨2025, 1, 2, 3, 4, 5⟩

def cexA : LinkItem := ⟨"a", "a", "", ["repo", "fa"], ["home", "t"]⟩

def cexB : LinkItem := ⟨"b", "b", "", ["repo", "fb"], ["home", "t"]⟩

def cexW0 : World :=
  ⟨[(["repo", "fa"], .file "A"), (["repo", "fb"], .file "B"), (["home"], .dir)],
    0, [], 0⟩

def cexRun1 : World :=
  resultWorld (link_items cexClock ReplaceMode.force false [cexA, cexB] cexW0)

def cexRun2 : World :=
  resultWorld (link_items cexClock ReplaceMode.force false [cexA, cexB] cexRun1)

/-- Counterexample to C2 as stated: for a batch of two entries sharing a
target under the `force` policy, the second run performs additional
filesystem mutations (the claim asserts it performs zero), and the first
entry — although successfully linked during the first run — does not
classify as `linked` when the second run starts. -/
theorem apply_not_unconditionally_idempotent :
    cexRun2.muts ≠ cexRun1.muts ∧
      (status_of cexRun1.fs cexA).1 ≠ "linked" := by decide

/-! ### Claim C5: safe policy -/

/-- With a present source, the status is never `missing-source`. -/
theorem status_ne_missing_of_present (fs : FS) (item : LinkItem)
    (hp : is_source_present fs item = true) :
    (status_of fs item).1 ≠ "missing-source" := by
  unfold status_of
  rw [hp]
  cases hsym : fsIsSymlink fs item.target <;>
    cases hex : fsExists fs item.target <;>
      cases hdir : fsIsDir fs item.target <;>
        simp_all <;> split <;> simp_all

/-- `target-dir` status means the target really is an existing directory
and not a symlink. -/
theorem status_target_dir_inv (fs : FS) (item : LinkItem)
    (h : (status_of fs item).1 = "target-dir") :
    fsExists fs item.target = true ∧ fsIsDir fs item.target = true ∧
      fsIsSymlink fs item.target = false := by
  unfold status_of at h
  cases hp : is_source_present fs item <;>
    cases hsym : fsIsSymlink fs item.target <;>
      cases hex : fsExists fs item.target <;>
        cases hdir : fsIsDir fs item.target <;>
          simp_all <;> split at h <;> simp_all

/-- Claim C5 (amended): under the `safe` policy `link_items` never
modifies or removes any existing filesystem node anywhere in the batch;
and an entry whose source is present and whose target is occupied by a
non-directory (a plain file or a symlink) that is not already the
correct link is reported as skipped with the backup/force hint, leaving
the state untouched.  (When the source is missing the target is equally
untouched, but the entry is reported as an error instead of a skip —
see the counterexample.) -/
theorem safe_policy_spec :
    (∀ (clock : Nat → Timestamp) (dry : Bool) (items : List LinkItem)
        (w : World) (p : FPath) (n : Node), fsLookup w.fs p = some n →
        fsLookup (resultWorld (link_items clock ReplaceMode.safe dry items w)).fs
          p = some n) ∧
    (∀ (clock : Nat → Timestamp) (dry : Bool) (w : World) (item : LinkItem),
        is_source_present w.fs item = true →
        (fsExists w.fs item.target || fsIsSymlink w.fs item.target) = true →
        ¬(fsExists w.fs item.target = true ∧ fsIsDir w.fs item.target = true ∧
          fsIsSymlink w.fs item.target = false) →
        (status_of w.fs item).1 ≠ "linked" →
        link_items clock ReplaceMode.safe dry [item] w =
          .done { w with
                  out := w.out ++
                    ["SKIP    " ++ padR item.key 22 ++
                      " target exists (use --mode backup/force)"] } none) := by
  constructor
  · intro clock dry items w p n h
    obtain ⟨w', e, hgo, _, _, hsafe, _, _⟩ :=
      link_items_go_spec clock ReplaceMode.safe dry items w false
    rw [show link_items clock ReplaceMode.safe dry items w = .done w' e from hgo]
    exact hsafe rfl p n h
  · intro clock dry w item hp hocc hne hnl
    have h1 : (status_of w.fs item).1 ≠ "missing-source" :=
      status_ne_missing_of_present w.fs item hp
    have h3 : (status_of w.fs item).1 ≠ "target-dir" := fun h =>
      hne (status_target_dir_inv w.fs item h)
    show link_items_go clock ReplaceMode.safe dry [item] w false = _
    unfold link_items_go
    rw [show processItem clock ReplaceMode.safe dry w item =
        .ok { w with
              out := w.out ++
                ["SKIP    " ++ padR item.key 22 ++
                  " target exists (use --mode backup/force)"] } false from by
      unfold processItem
      rw [if_neg h1, if_neg hnl, if_neg h3, if_pos hocc, if_pos rfl]]
    rfl

def safeClock : Nat → Timestamp := fun _ => ⟨2025, 1, 1, 0, 0, 0⟩

def safeCexItem : LinkItem := ⟨"k", "k", "", ["r", "x"], ["h", "t"]⟩

def safeCexW : World := ⟨[(["h", "t"], .file "data")], 0, [], 0⟩

/-- Counterexample to C5 as stated: an entry whose target is occupied by
a plain file (and so is not a correct link) but whose source is missing
is not reported as skipped with the backup/force hint under `safe` —
the run reports an error line instead. -/
theorem safe_policy_skip_report_fails :
    ¬ ("SKIP    " ++ padR "k" 22 ++ " target exists (use --mode backup/force)") ∈
      (resultWorld (link_items safeClock ReplaceMode.safe false [safeCexItem]
        safeCexW)).out := by decide

def safeWitItem : LinkItem := ⟨"k", "k", "", ["r", "s"], ["h", "t"]⟩

def safeWitW : World :=
  ⟨[(["r", "s"], .file "x"), (["h", "t"], .file "other")], 0, [], 0⟩

/-- Witness for the amended C5 at a concrete occupied target. -/
theorem safe_policy_spec_witness :
    fsLookup (resultWorld (link_items safeClock ReplaceMode.safe false
        [safeWitItem] safeWitW)).fs ["h", "t"] = some (.file "other") ∧
    link_items safeClock ReplaceMode.safe false [safeWitItem] safeWitW =
      .done { safeWitW with
              out := safeWitW.out ++
                ["SKIP    " ++ padR "k" 22 ++
                  " target exists (use --mode backup/force)"] } none :=
  ⟨safe_policy_spec.1 safeClock false [safeWitItem] safeWitW ["h", "t"]
      (.file "other") (by decide),
   safe_policy_spec.2 safeClock false safeWitW safeWitItem (by decide)
      (by decide) (by decide) (by decide)⟩

/-! ### Claim C6: directory guard -/

/-- Claim C6: a target that is a real directory is never touched: standalone
`remove_target` raises the fatal exit regardless of policy and leaves the
state unchanged, and `link_items` under any policy records an entry-level
error line for such an entry, exits with failure, and leaves the whole
filesystem (hence the directory and its contents) untouched. -/
theorem directory_guard :
    (∀ (clock : Nat → Timestamp) (w : World) (target : FPath)
        (mode : ReplaceMode) (dry : Bool),
        fsExists w.fs target = true → fsIsDir w.fs target = true →
        fsIsSymlink w.fs target = false →
        remove_target clock w target mode dry = .raise w 2) ∧
    (∀ (clock : Nat → Timestamp) (mode : ReplaceMode) (dry : Bool)
        (w : World) (item : LinkItem),
        fsLookup w.fs item.target = some .dir →
        ∃ msg rest, msg = "ERROR   " ++ rest ∧
          link_items clock mode dry [item] w =
            .done { w with out := w.out ++ [msg] } (some 2)) := by
  constructor
  · intro clock w target mode dry hex hdir hsym
    unfold remove_target
    rw [if_neg (by simp [hex]), if_pos (by simp [hex, hdir, hsym])]
  · intro clock mode dry w item hlook
    have hex := fsExists_of_lookup_dir w.fs item.target hlook
    have hdir := fsIsDir_of_lookup_dir w.fs item.target hlook
    have hsym := fsIsSymlink_of_lookup_dir w.fs item.target hlook
    by_cases hp : is_source_present w.fs item = true
    · have hst := status_of_real_dir w.fs item hp hex hdir hsym
      refine ⟨"ERROR   " ++ padR item.key 22 ++ " target is a directory: " ++
        displayPath item.target,
        padR item.key 22 ++ (" target is a directory: " ++ displayPath item.target),
        by simp [String.append_assoc], ?_⟩
      show link_items_go clock mode dry [item] w false = _
      unfold link_items_go
      rw [show processItem clock mode dry w item =
          .ok { w with
                out := w.out ++
                  ["ERROR   " ++ padR item.key 22 ++ " target is a directory: " ++
                    displayPath item.target] } true from by
        unfold processItem
        rw [if_neg (by rw [hst]; decide), if_neg (by rw [hst]; decide),
          if_pos (by rw [hst])]]
      rfl
    · have hp2 : is_source_present w.fs item = false := by
        revert hp; cases is_source_present w.fs item <;> simp
      have hst : status_of w.fs item = ("missing-source", "source missing") := by
        simp [status_of, hp2]
      refine ⟨"ERROR   " ++ padR item.key 22 ++ " source missing: " ++
        displayPath item.source,
        padR item.key 22 ++ (" source missing: " ++ displayPath item.source),
        by simp [String.append_assoc], ?_⟩
      show link_items_go clock mode dry [item] w false = _
      unfold link_items_go
      rw [show processItem clock mode dry w item =
          .ok { w with
                out := w.out ++
                  ["ERROR   " ++ padR item.key 22 ++ " source missing: " ++
                    displayPath item.source] } true from by
        unfold processItem
        rw [if_pos (by rw [hst])]]
      rfl

def dirClock : Nat → Timestamp := fun _ => ⟨2025, 1, 1, 0, 0, 0⟩

def dirW : World := ⟨[(["h", "d"], .dir), (["r", "s"], .file "x")], 0, [], 0⟩

def dirItem : LinkItem := ⟨"k", "k", "", ["r", "s"], ["h", "d"]⟩

/-- Witness for C6 at a concrete directory target. -/
theorem directory_guard_witness :
    remove_target dirClock dirW ["h", "d"] ReplaceMode.force false =
        .raise dirW 2 ∧
    ∃ msg rest, msg = "ERROR   " ++ rest ∧
      link_items dirClock ReplaceMode.force false [dirItem] dirW =
        .done { dirW with out := dirW.out ++ [msg] } (some 2) :=
  ⟨directory_guard.1 dirClock dirW ["h", "d"] ReplaceMode.force false
      (by decide) (by decide) (by decide),
   directory_guard.2 dirClock ReplaceMode.force false dirW dirItem (by decide)⟩

/-! ### Claim C4: backup policy -/

/-- The rendered timestamp is always 15 characters. -/
theorem fmtTimestamp_length (t : Timestamp) : (fmtTimestamp t).length = 15 := by
  simp [fmtTimestamp, pad4L, pad2L, String.length]

/-- For in-range field values the rendered timestamp consists of 14
decimal digits (plus the separating hyphen). -/
theorem fmtTimestamp_digits (t : Timestamp) (hy : t.year < 10000)
    (hmo : t.month < 100) (hd : t.day < 100) (hh : t.hour < 100)
    (hmi : t.minute < 100) (hs : t.second < 100) :
    (fmtTimestamp t).toList.countP (fun ch => ch.isDigit) = 14 := by
  have hdig : ∀ d : Nat, d < 10 → (Nat.digitChar d).isDigit = true := by
    intro d hlt
    interval_cases d <;> decide
  have h1 := hdig (t.year / 1000) (by omega)
  have h2 := hdig (t.year / 100 % 10) (by omega)
  have h3 := hdig (t.year / 10 % 10) (by omega)
  have h4 := hdig (t.year % 10) (by omega)
  have h5 := hdig (t.month / 10) (by omega)
  have h6 := hdig (t.month % 10) (by omega)
  have h7 := hdig (t.day / 10) (by omega)
  have h8 := hdig (t.day % 10) (by omega)
  have h9 := hdig (t.hour / 10) (by omega)
  have h10 := hdig (t.hour % 10) (by omega)
  have h11 := hdig (t.minute / 10) (by omega)
  have h12 := hdig (t.minute % 10) (by omega)
  have h13 := hdig (t.second / 10) (by omega)
  have h14 := hdig (t.second % 10) (by omega)
  simp [fmtTimestamp, pad4L, pad2L, String.toList, List.countP_cons,
    List.countP_append, h1, h2, h3, h4, h5, h6, h7, h8, h9, h10, h11, h12,
    h13, h14]

/-- A plain-file target with a present source classifies as `exists`. -/
theorem status_of_exists_plain (fs : FS) (item : LinkItem) (c : String)
    (hp : is_source_present fs item = true)
    (hfile : fsLookup fs item.target = some (.file c)) :
    status_of fs item = ("exists", "target exists") := by
  simp [status_of, hp, fsIsSymlink_of_lookup_file fs item.target c hfile,
    fsExists_of_lookup_file fs item.target c hfile,
    fsIsDir_of_lookup_file fs item.target c hfile]

/-- Claim C4: backup policy.  If the target is a plain file and the policy
is `backup`, after `link_items` the original content sits untouched at the
sibling path `<name>.bak.<timestamp>` (the timestamp carrying 14 decimal
digits for in-range clock values) and the target has become a symlink to
the source. -/
theorem backup_policy (clock : Nat → Timestamp) (w : World) (pre : FPath)
    (name : String) (c : String) (item : LinkItem)
    (htgt : item.target = pre ++ [name])
    (hfile : fsLookup w.fs item.target = some (.file c))
    (hsrc : is_source_present w.fs item = true)
    (hy : (clock w.tick).year < 10000) (hmo : (clock w.tick).month < 100)
    (hd : (clock w.tick).day < 100) (hh : (clock w.tick).hour < 100)
    (hmi : (clock w.tick).minute < 100) (hs : (clock w.tick).second < 100) :
    ∃ w', link_items clock ReplaceMode.backup false [item] w = .done w' none ∧
      fsLookup w'.fs item.target = some (.symlink item.source) ∧
      fsLookup w'.fs
        (pre ++ [name ++ ".bak." ++ fmtTimestamp (clock w.tick)]) =
        some (.file c) ∧
      (fmtTimestamp (clock w.tick)).length = 15 ∧
      (fmtTimestamp (clock w.tick)).toList.countP (fun ch => ch.isDigit) = 14 := by
  have hsym := fsIsSymlink_of_lookup_file w.fs item.target c hfile
  have hex := fsExists_of_lookup_file w.fs item.target c hfile
  have hdir := fsIsDir_of_lookup_file w.fs item.target c hfile
  have hst := status_of_exists_plain w.fs item c hsrc hfile
  have hpar : parentOf item.target = pre := by
    rw [htgt]; exact List.dropLast_concat
  have hlast : (item.target.getLast?).getD "" = name := by
    rw [htgt]; simp [List.getLast?_concat]
  have hbkne : ¬ (pre ++ [name ++ ".bak." ++ fmtTimestamp (clock w.tick)]) =
      item.target := by
    rw [htgt]
    intro h
    have h2 : name ++ ".bak." ++ fmtTimestamp (clock w.tick) = name := by
      have := List.append_cancel_left h
      exact List.head_eq_of_cons_eq this
    have h3 := congrArg String.length h2
    rw [String.length_append, String.length_append,
      fmtTimestamp_length (clock w.tick),
      (rfl : (".bak." : String).length = 5)] at h3
    omega
  have hbp : backup_path_for clock w item.target =
      ({ w with tick := w.tick + 1 },
        pre ++ [name ++ ".bak." ++ fmtTimestamp (clock w.tick)]) := by
    unfold backup_path_for
    dsimp only
    rw [hpar, hlast]
  have hrt : remove_target clock w item.target ReplaceMode.backup false =
      .ok { w with
            fs := fsRename w.fs item.target
              (pre ++ [name ++ ".bak." ++ fmtTimestamp (clock w.tick)]),
            tick := w.tick + 1, muts := w.muts + 1 }
        (some (pre ++ [name ++ ".bak." ++ fmtTimestamp (clock w.tick)])) := by
    unfold remove_target
    rw [if_neg (by simp [hex]), if_neg (by simp [hdir]),
      if_neg (by decide), if_pos rfl, hbp]
    rfl
  have hpi : processItem clock ReplaceMode.backup false w item =
      finishLink
        { w with
          fs := fsRename w.fs item.target
            (pre ++ [name ++ ".bak." ++ fmtTimestamp (clock w.tick)]),
          tick := w.tick + 1, muts := w.muts + 1 }
        (some (pre ++ [name ++ ".bak." ++ fmtTimestamp (clock w.tick)]))
        item false := by
    unfold processItem
    rw [if_neg (by rw [hst]; decide), if_neg (by rw [hst]; decide),
      if_neg (by rw [hst]; decide), if_pos (by simp [hex]),
      if_neg (by decide), hrt]
  obtain ⟨w4, hfin, _, _, htgt4, hpres4⟩ :=
    finishLink_spec
      { w with
        fs := fsRename w.fs item.target
          (pre ++ [name ++ ".bak." ++ fmtTimestamp (clock w.tick)]),
        tick := w.tick + 1, muts := w.muts + 1 }
      (some (pre ++ [name ++ ".bak." ++ fmtTimestamp (clock w.tick)])) item false
  have hbklook : fsLookup (fsRename w.fs item.target
      (pre ++ [name ++ ".bak." ++ fmtTimestamp (clock w.tick)]))
      (pre ++ [name ++ ".bak." ++ fmtTimestamp (clock w.tick)]) =
      some (.file c) := by
    unfold fsRename
    rw [hfile, fsLookup_fsSet]
    simp
  refine ⟨w4, ?_, htgt4 rfl, hpres4 _ (.file c) hbklook hbkne,
    fmtTimestamp_length _, fmtTimestamp_digits _ hy hmo hd hh hmi hs⟩
  show link_items_go clock ReplaceMode.backup false [item] w false = _
  unfold link_items_go
  rw [hpi.trans hfin]
  rfl

def bakClock : Nat → Timestamp := fun _ => ⟨2025, 6, 7, 8, 9, 10⟩

def bakW : World :=
  ⟨[(["r", "s"], .file "src"), (["h", "t"], .file "old")], 0, [], 0⟩

def bakItem : LinkItem := ⟨"k", "k", "", ["r", "s"], ["h", "t"]⟩

/-- Witness for C4 at a concrete plain-file target. -/
theorem backup_policy_witness :
    ∃ w', link_items bakClock ReplaceMode.backup false [bakItem] bakW =
        .done w' none ∧
      fsLookup w'.fs bakItem.target = some (.symlink bakItem.source) ∧
      fsLookup w'.fs
        (["h"] ++ ["t" ++ ".bak." ++ fmtTimestamp (bakClock bakW.tick)]) =
        some (.file "old") ∧
      (fmtTimestamp (bakClock bakW.tick)).length = 15 ∧
      (fmtTimestamp (bakClock bakW.tick)).toList.countP
        (fun ch => ch.isDigit) = 14 :=
  backup_policy bakClock bakW ["h"] "t" "old" bakItem (by decide) (by decide)
    (by decide) (by decide) (by decide) (by decide) (by decide) (by decide)
    (by decide)

/-! ### Claim C9: unknown-label handling -/

/-- Claim C9: every `depends` entry that is not a declared label produces
an `unknown label '<dep>'` error referencing the check's position, and
unknown dependencies contribute no edges: the single check
`[{label: a, depends: [missing]}]` yields exactly the unknown-label
error and no cycle error. -/
theorem unknown_label_handling :
    (∀ (checks : List Check) (i : Nat) (h : i < checks.length) (dep : String),
        dep ∈ (checks.get ⟨i, h⟩).depends → dep ∉ allLabels checks →
        unknownLabelError i dep ∈ validateGraph checks) ∧
    validateGraph [⟨"a", ["missing"]⟩] = [unknownLabelError 0 "missing"] := by
  constructor
  · intro checks i h dep hdep hnot
    have hmem : unknownLabelError i dep ∈ unknownErrors checks := by
      rw [unknownErrors, List.mem_flatMap]
      refine ⟨(i, checks.get ⟨i, h⟩), ?_, ?_⟩
      · have h2 : i < checks.enum.length := by simpa using h
        have h3 := List.getElem_enum checks i h2
        rw [show ((i, checks.get ⟨i, h⟩)) = checks.enum[i] from by
          rw [h3]; rfl]
        exact List.getElem_mem h2
      · rw [List.mem_map]
        refine ⟨dep, ?_, rfl⟩
        rw [List.mem_filter]
        exact ⟨hdep, by simpa using hnot⟩
    unfold validateGraph
    dsimp only
    split
    · exact List.mem_append_left _ hmem
    · exact hmem
  · decide

/-- Witness for C9 at the spec's concrete example. -/
theorem unknown_label_handling_witness :
    unknownLabelError 0 "missing" ∈ validateGraph [⟨"a", ["missing"]⟩] :=
  unknown_label_handling.1 [⟨"a", ["missing"]⟩] 0 (by decide) "missing"
    (by decide) (by decide)

/-! ### Claim C10: entry selection (`resolve_items`) -/

/-- Index of the first occurrence of an element. -/
def firstIdx {α : Type} [DecidableEq α] : List α → α → Nat
  | [], _ => 0
  | x :: xs, a => if x = a then 0 else firstIdx xs a + 1

theorem firstIdx_lt_length {α : Type} [DecidableEq α] :
    ∀ (l : List α) (a : α), a ∈ l → firstIdx l a < l.length := by
  intro l
  induction l with
  | nil => intro a ha; cases ha
  | cons x xs ih =>
    intro a ha
    by_cases hx : x = a
    · simp [firstIdx, hx]
    · have : a ∈ xs := by
        rcases List.mem_cons.mp ha with h | h
        · exact absurd h.symm hx
        · exact h
      simp only [firstIdx, hx, if_false, List.length_cons]
      exact Nat.succ_lt_succ (ih a this)

theorem firstIdx_append_left {α : Type} [DecidableEq α] :
    ∀ (p r : List α) (a : α), a ∈ p → firstIdx (p ++ r) a = firstIdx p a := by
  intro p r
  induction p with
  | nil => intro a ha; cases ha
  | cons x xs ih =>
    intro a ha
    by_cases hx : x = a
    · simp [firstIdx, hx]
    · have : a ∈ xs := by
        rcases List.mem_cons.mp ha with h | h
        · exact absurd h.symm hx
        · exact h
      simp [firstIdx, hx, ih a this]

theorem firstIdx_append_right {α : Type} [DecidableEq α] :
    ∀ (p r : List α) (a : α), a ∉ p →
      firstIdx (p ++ r) a = p.length + firstIdx r a := by
  intro p r
  induction p with
  | nil => intro a _; simp
  | cons x xs ih =>
    intro a ha
    have hx : ¬ x = a := fun h => ha (h ▸ List.mem_cons_self x xs)
    have ha2 : a ∉ xs := fun h => ha (List.mem_cons_of_mem x h)
    rw [show firstIdx ((x :: xs) ++ r) a = firstIdx (xs ++ r) a + 1 from by
      simp [firstIdx, hx], ih a ha2]
    simp only [List.length_cons]
    omega

/-- The deduplicating accumulation `if item not in chosen: chosen.append`. -/
def chooseStep (acc : List LinkItem) (it : LinkItem) : List LinkItem :=
  if it ∈ acc then acc else acc ++ [it]

theorem chooseFold_mem :
    ∀ (l acc : List LinkItem) (z : LinkItem),
      z ∈ l.foldl chooseStep acc ↔ z ∈ acc ∨ z ∈ l := by
  intro l
  induction l with
  | nil => intro acc z; simp
  | cons x rest ih =>
    intro acc z
    have hstep : z ∈ chooseStep acc x ↔ z ∈ acc ∨ z = x := by
      by_cases hx : x ∈ acc
      · simp only [chooseStep, hx, if_true]
        constructor
        · exact Or.inl
        · rintro (h | h)
          · exact h
          · exact h ▸ hx
      · simp [chooseStep, hx, List.mem_append]
    simp only [List.foldl]
    rw [ih, hstep]
    simp only [List.mem_cons]
    tauto

theorem chooseFold_nodup :
    ∀ (l acc : List LinkItem), acc.Nodup → (l.foldl chooseStep acc).Nodup := by
  intro l
  induction l with
  | nil => intro acc h; exact h
  | cons x rest ih =>
    intro acc h
    refine ih (chooseStep acc x) ?_
    by_cases hx : x ∈ acc
    · simpa [chooseStep, hx] using h
    · simp [chooseStep, hx, List.nodup_append, h]

theorem chooseFold_pairwise (mapped : List LinkItem) :
    ∀ (rest done acc : List LinkItem),
      mapped = done ++ rest →
      (∀ z ∈ acc, z ∈ done) → (∀ z ∈ done, z ∈ acc) →
      List.Pairwise (fun x y => firstIdx mapped x < firstIdx mapped y) acc →
      List.Pairwise (fun x y => firstIdx mapped x < firstIdx mapped y)
        (rest.foldl chooseStep acc) := by
  intro rest
  induction rest with
  | nil => intro done acc _ _ _ hpw; exact hpw
  | cons x rest ih =>
    intro done acc hsplit hsub1 hsub2 hpw
    simp only [List.foldl]
    by_cases hx : x ∈ acc
    · rw [show chooseStep acc x = acc from by simp [chooseStep, hx]]
      refine ih (done ++ [x]) acc (by rw [hsplit]; simp) ?_ ?_ hpw
      · exact fun z hz => List.mem_append_left _ (hsub1 z hz)
      · intro z hz
        rcases List.mem_append.mp hz with h | h
        · exact hsub2 z h
        · rw [List.mem_singleton.mp h]; exact hx
    · rw [show chooseStep acc x = acc ++ [x] from by simp [chooseStep, hx]]
      have hxdone : x ∉ done := fun h => hx (hsub2 x h)
      have hpw2 : List.Pairwise
          (fun a b => firstIdx mapped a < firstIdx mapped b) (acc ++ [x]) := by
        rw [List.pairwise_append]
        refine ⟨hpw, List.pairwise_singleton _ _, ?_⟩
        intro y hy x2 hx2
        rw [List.mem_singleton.mp hx2]
        have hydone : y ∈ done := hsub1 y hy
        have hL : firstIdx mapped y < done.length := by
          rw [hsplit, firstIdx_append_left done (x :: rest) y hydone]
          exact firstIdx_lt_length done y hydone
        have hR : firstIdx mapped x = done.length := by
          rw [hsplit, firstIdx_append_right done (x :: rest) x hxdone]
          simp [firstIdx]
        omega
      refine ih (done ++ [x]) (acc ++ [x]) (by rw [hsplit]; simp) ?_ ?_ hpw2
      · intro z hz
        rcases List.mem_append.mp hz with h | h
        · exact List.mem_append_left _ (hsub1 z h)
        · exact List.mem_append_right _ h
      · intro z hz
        rcases List.mem_append.mp hz with h | h
        · exact List.mem_append_left _ (hsub2 z h)
        · exact List.mem_append_right _ h

theorem resolve_fold_unknown (items : List LinkItem) :
    ∀ (keys : List String) (ch : List LinkItem) (unk : List String),
      (keys.foldl (resolveStep items) (ch, unk)).2 =
        unk ++ keys.filter (fun r => (findByKey items (pyStrip r)).isNone) := by
  intro keys
  induction keys with
  | nil => intro ch unk; simp
  | cons raw rest ih =>
    intro ch unk
    simp only [List.foldl]
    cases hf : findByKey items (pyStrip raw) with
    | some it =>
      rw [show resolveStep items (ch, unk) raw =
          (if it ∈ ch then (ch, unk) else (ch ++ [it], unk)) from by
        unfold resolveStep; dsimp only; rw [hf]]
      by_cases hmem : it ∈ ch
      · rw [if_pos hmem, ih]
        simp [List.filter_cons, hf]
      · rw [if_neg hmem, ih]
        simp [List.filter_cons, hf]
    | none =>
      rw [show resolveStep items (ch, unk) raw = (ch, unk ++ [raw]) from by
        unfold resolveStep; dsimp only; rw [hf]]
      rw [ih]
      simp [List.filter_cons, hf]

theorem resolve_fold_chosen (items : List LinkItem) :
    ∀ (keys : List String) (ch : List LinkItem) (unk : List String),
      (keys.foldl (resolveStep items) (ch, unk)).1 =
        (keys.filterMap (fun r => findByKey items (pyStrip r))).foldl chooseStep ch := by
  intro keys
  induction keys with
  | nil => intro ch unk; simp
  | cons raw rest ih =>
    intro ch unk
    simp only [List.foldl]
    cases hf : findByKey items (pyStrip raw) with
    | some it =>
      rw [show resolveStep items (ch, unk) raw =
          (if it ∈ ch then (ch, unk) else (ch ++ [it], unk)) from by
        unfold resolveStep; dsimp only; rw [hf]]
      rw [show List.filterMap (fun r => findByKey items (pyStrip r)) (raw :: rest) =
          it :: List.filterMap (fun r => findByKey items (pyStrip r)) rest from by
        simp [List.filterMap_cons, hf]]
      by_cases hmem : it ∈ ch
      · rw [if_pos hmem, ih]
        simp only [List.foldl]
        rw [show chooseStep ch it = ch from by simp [chooseStep, hmem]]
      · rw [if_neg hmem, ih]
        simp only [List.foldl]
        rw [show chooseStep ch it = ch ++ [it] from by simp [chooseStep, hmem]]
    | none =>
      rw [show resolveStep items (ch, unk) raw = (ch, unk ++ [raw]) from by
        unfold resolveStep; dsimp only; rw [hf]]
      rw [show List.filterMap (fun r => findByKey items (pyStrip r)) (raw :: rest) =
          List.filterMap (fun r => findByKey items (pyStrip r)) rest from by
        simp [List.filterMap_cons, hf], ih]

theorem mem_data_infix_joinComma :
    ∀ (l : List String) (a : String), a ∈ l →
      a.data <:+: (joinComma l).data := by
  intro l
  induction l with
  | nil => intro a ha; cases ha
  | cons b rest ih =>
    intro a ha
    cases rest with
    | nil =>
      rw [show a = b from by simpa using ha]
      exact List.infix_rfl
    | cons c rest2 =>
      rcases List.mem_cons.mp ha with h | h
      · rw [h]
        show b.data <:+: (b ++ ", " ++ joinComma (c :: rest2)).data
        rw [show (b ++ ", " ++ joinComma (c :: rest2)).data =
            b.data ++ (", " ++ joinComma (c :: rest2)).data from by
          simp [List.append_assoc]]
        exact (List.prefix_append _ _).isInfix
      · show a.data <:+: (b ++ ", " ++ joinComma (c :: rest2)).data
        rw [show (b ++ ", " ++ joinComma (c :: rest2)).data =
            (b ++ ", ").data ++ (joinComma (c :: rest2)).data from rfl]
        exact (ih a h).trans (List.suffix_append _ _).isInfix

/-- Claim C10: `resolve_items` with `use_all` returns all items in
registry order; otherwise it strips whitespace from each requested key,
returns the matching items deduplicated in first-occurrence order, and
if any requested key is unknown it raises an error naming every unknown
key and returns no partial selection. -/
theorem resolve_items_selection :
    (∀ (items : List LinkItem) (keys : List String),
        resolve_items items keys true = .ok items) ∧
    (∀ (items : List LinkItem) (keys : List String) (raw0 : String),
        raw0 ∈ keys → findByKey items (pyStrip raw0) = none →
        ∃ msg, resolve_items items keys false = .error msg ∧
          ∀ raw ∈ keys, findByKey items (pyStrip raw) = none →
            raw.data <:+: msg.data) ∧
    (∀ (items : List LinkItem) (keys : List String),
        (∀ raw ∈ keys, (findByKey items (pyStrip raw)).isSome = true) →
        ∃ chosen, resolve_items items keys false = .ok chosen ∧
          chosen.Nodup ∧
          (∀ it, it ∈ chosen ↔
            ∃ raw ∈ keys, findByKey items (pyStrip raw) = some it) ∧
          List.Pairwise (fun x y =>
            firstIdx (keys.filterMap (fun r => findByKey items (pyStrip r))) x <
              firstIdx (keys.filterMap (fun r => findByKey items (pyStrip r))) y)
            chosen) := by
  refine ⟨fun items keys => by simp [resolve_items], ?_, ?_⟩
  · intro items keys raw0 h0 hnone
    have hunk : (keys.foldl (resolveStep items) ([], [])).2 =
        keys.filter (fun r => (findByKey items (pyStrip r)).isNone) := by
      rw [resolve_fold_unknown items keys [] []]
      rfl
    have hne : keys.filter (fun r => (findByKey items (pyStrip r)).isNone) ≠ [] := by
      intro h
      have : raw0 ∈ keys.filter (fun r => (findByKey items (pyStrip r)).isNone) := by
        rw [List.mem_filter]
        exact ⟨h0, by simp [hnone]⟩
      rw [h] at this
      cases this
    have hemp : (keys.foldl (resolveStep items) ([], [])).2.isEmpty = false := by
      rw [hunk]
      cases hc : keys.filter (fun r => (findByKey items (pyStrip r)).isNone) with
      | nil => exact absurd hc hne
      | cons a l => simp
    refine ⟨"Unknown target(s): " ++
      joinComma (keys.foldl (resolveStep items) ([], [])).2 ++ ". Use " ++
      squote ++ "list" ++ squote ++ " to see options.", ?_, ?_⟩
    · show resolve_items items keys false = _
      unfold resolve_items
      rw [if_neg (by simp)]
      dsimp only
      rw [hemp]
      rfl
    · intro raw hraw hrnone
      have hmem : raw ∈ (keys.foldl (resolveStep items) ([], [])).2 := by
        rw [hunk, List.mem_filter]
        exact ⟨hraw, by simp [hrnone]⟩
      have h1 := mem_data_infix_joinComma _ raw hmem
      refine h1.trans ?_
      refine ⟨("Unknown target(s): " : String).data,
        (". Use " ++ squote ++ "list" ++ squote ++
          " to see options." : String).data, ?_⟩
      simp [String.data_append, List.append_assoc]
  · intro items keys hall
    have hunk : (keys.foldl (resolveStep items) ([], [])).2 = [] := by
      rw [resolve_fold_unknown items keys [] []]
      simp only [List.nil_append]
      rw [List.filter_eq_nil_iff]
      intro a ha
      have := hall a ha
      simp only [Option.isNone]
      cases hf : findByKey items (pyStrip a) with
      | some it => simp
      | none => rw [hf] at this; cases this
    have hch : (keys.foldl (resolveStep items) ([], [])).1 =
        (keys.filterMap (fun r => findByKey items (pyStrip r))).foldl chooseStep [] :=
      resolve_fold_chosen items keys [] []
    refine ⟨(keys.foldl (resolveStep items) ([], [])).1, ?_, ?_, ?_, ?_⟩
    · show resolve_items items keys false = _
      unfold resolve_items
      rw [if_neg (by simp)]
      dsimp only
      rw [hunk]
      rfl
    · rw [hch]
      exact chooseFold_nodup _ [] List.nodup_nil
    · intro it
      rw [hch, chooseFold_mem, List.mem_filterMap]
      simp
    · rw [hch]
      exact chooseFold_pairwise _ _ [] [] rfl (by simp) (by simp)
        List.Pairwise.nil

def selItems : List LinkItem :=
  [⟨"a", "a", "", ["repo", "fa"], ["home", "a"]⟩,
   ⟨"b", "b", "", ["repo", "fb"], ["home", "b"]⟩]

/-- Witness for C10: unknown keys raise a naming error; known keys are
stripped and deduplicated. -/
theorem resolve_items_selection_witness :
    (∃ msg, resolve_items selItems ["bad"] false = .error msg ∧
      ∀ raw ∈ ["bad"], findByKey selItems (pyStrip raw) = none →
        raw.data <:+: msg.data) ∧
    (∃ chosen, resolve_items selItems ["  a ", "b", "a"] false = .ok chosen ∧
      chosen.Nodup ∧
      (∀ it, it ∈ chosen ↔
        ∃ raw ∈ ["  a ", "b", "a"], findByKey selItems (pyStrip raw) = some it) ∧
      List.Pairwise (fun x y =>
        firstIdx ((["  a ", "b", "a"] : List String).filterMap
          (fun r => findByKey selItems (pyStrip r))) x <
          firstIdx ((["  a ", "b", "a"] : List String).filterMap
            (fun r => findByKey selItems (pyStrip r))) y) chosen) :=
  ⟨resolve_items_selection.2.1 selItems ["bad"] "bad" (by decide) (by decide),
   resolve_items_selection.2.2 selItems ["  a ", "b", "a"] (by decide)⟩

/-! ### Claim C8: cycle detection — association-map lemmas -/

theorem degLookup_isSome_iff_mem (m : DegMap) (k : String) :
    (degLookup m k).isSome = true ↔ k ∈ degKeys m := by
  induction m with
  | nil => simp [degLookup, degKeys]
  | cons p rest ih =>
    by_cases hp : p.1 = k <;> simp [degLookup, degKeys, hp, ih]
    exact fun h => absurd h.symm hp

theorem degLookup_eq_of_mem_nodup (m : DegMap) (k : String) (v : Int)
    (hn : (degKeys m).Nodup) (hm : (k, v) ∈ m) : degLookup m k = some v := by
  induction m with
  | nil => cases hm
  | cons p rest ih =>
    rcases List.mem_cons.mp hm with h | h
    · rw [← h]
      simp [degLookup]
    · have hk : k ∈ degKeys rest := by
        have := List.mem_map_of_mem (fun q : String × Int => q.1) h
        simpa [degKeys] using this
      have hn2 : p.1 ∉ degKeys rest ∧ (degKeys rest).Nodup :=
        List.nodup_cons.mp hn
      have hp : ¬ p.1 = k := fun he => hn2.1 (he ▸ hk)
      simp only [degLookup, hp, if_false]
      exact ih hn2.2 h

theorem mem_of_degLookup (m : DegMap) (k : String) (v : Int)
    (h : degLookup m k = some v) : (k, v) ∈ m := by
  induction m with
  | nil => cases h
  | cons p rest ih =>
    by_cases hp : p.1 = k
    · rw [degLookup, if_pos hp] at h
      have hv : p.2 = v := Option.some.inj h
      have : p = (k, v) := Prod.ext hp hv
      rw [← this]
      exact List.mem_cons_self _ _
    · rw [degLookup, if_neg hp] at h
      exact List.mem_cons_of_mem _ (ih h)

theorem mem_degKeys_iff (m : DegMap) (k : String) :
    k ∈ degKeys m ↔ ∃ v, degLookup m k = some v := by
  rw [← degLookup_isSome_iff_mem]
  cases degLookup m k <;> simp

theorem degLookup_map_add (m : DegMap) (k : String) (d : Int) (x : String) :
    degLookup (m.map (fun p => if p.1 = k then (p.1, p.2 + d) else p)) x =
      if x = k then (degLookup m x).map (· + d) else degLookup m x := by
  induction m with
  | nil => by_cases hx : x = k <;> simp [degLookup, hx]
  | cons p rest ih =>
    by_cases hp : p.1 = k <;> by_cases hpx : p.1 = x <;>
      by_cases hx : x = k <;>
        simp_all [degLookup] <;> simp_all

theorem degLookup_append_single (m : DegMap) (k : String) (d : Int) (x : String) :
    degLookup (m ++ [(k, d)]) x =
      (degLookup m x).or (if x = k then some d else none) := by
  induction m with
  | nil =>
    by_cases hx : x = k <;> simp [degLookup, hx]
    exact fun h => absurd h.symm hx
  | cons p rest ih =>
    by_cases hp : p.1 = x <;> simp [degLookup, hp, ih]

theorem degLookup_degAdd_self (m : DegMap) (k : String) (d : Int) :
    degLookup (degAdd m k d) k = some ((degLookup m k).getD 0 + d) := by
  unfold degAdd
  cases hl : degLookup m k with
  | some v =>
    rw [if_pos (by simp [hl]), degLookup_map_add, if_pos rfl, hl]
    rfl
  | none =>
    rw [if_neg (by simp [hl]), degLookup_append_single, hl, if_pos rfl]
    simp

theorem degLookup_degAdd_other (m : DegMap) (k : String) (d : Int) (x : String)
    (h : ¬ x = k) : degLookup (degAdd m k d) x = degLookup m x := by
  unfold degAdd
  split
  · rw [degLookup_map_add, if_neg h]
  · rw [degLookup_append_single, if_neg h]
    cases degLookup m x <;> rfl

theorem degKeys_map_add (m : DegMap) (k : String) (d : Int) :
    degKeys (m.map (fun p => if p.1 = k then (p.1, p.2 + d) else p)) =
      degKeys m := by
  unfold degKeys
  rw [List.map_map]
  apply List.map_congr_left
  intro p _
  by_cases hp : p.1 = k <;> simp [hp]

theorem degKeys_degAdd (m : DegMap) (k : String) (d : Int) :
    degKeys (degAdd m k d) =
      if (degLookup m k).isSome then degKeys m else degKeys m ++ [k] := by
  unfold degAdd
  split
  · exact degKeys_map_add m k d
  · simp [degKeys]

theorem degKeys_degSetdefault (m : DegMap) (k : String) :
    degKeys (degSetdefault m k) =
      if (degLookup m k).isSome then degKeys m else degKeys m ++ [k] := by
  unfold degSetdefault
  split
  · rfl
  · simp [degKeys]

theorem degLookup_degSetdefault (m : DegMap) (k : String) (x : String) :
    degLookup (degSetdefault m k) x =
      if (degLookup m k).isSome then degLookup m x
      else (degLookup m x).or (if x = k then some 0 else none) := by
  unfold degSetdefault
  split
  · rfl
  · rw [degLookup_append_single]

theorem depLookup_map_append (m : DepMap) (k v : String) (x : String) :
    depLookup (m.map (fun p => if p.1 = k then (p.1, p.2 ++ [v]) else p)) x =
      if x = k then (depLookup m x).map (· ++ [v]) else depLookup m x := by
  induction m with
  | nil => by_cases hx : x = k <;> simp [depLookup, hx]
  | cons p rest ih =>
    by_cases hp : p.1 = k <;> by_cases hpx : p.1 = x <;>
      by_cases hx : x = k <;>
        simp_all [depLookup] <;> simp_all

theorem depLookup_append_single (m : DepMap) (k v : String) (x : String) :
    depLookup (m ++ [(k, [v])]) x =
      (depLookup m x).or (if x = k then some [v] else none) := by
  induction m with
  | nil =>
    by_cases hx : x = k <;> simp [depLookup, hx]
    exact fun h => absurd h.symm hx
  | cons p rest ih =>
    by_cases hp : p.1 = x <;> simp [depLookup, hp, ih]

theorem depGet_depAppend_sub (m : DepMap) (k v n c : String)
    (h : c ∈ depGet (depAppend m k v) n) : c ∈ depGet m n ∨ c = v := by
  unfold depAppend at h
  split at h
  · rw [depGet, depLookup_map_append] at h
    by_cases hn : n = k
    · rw [if_pos hn] at h
      cases hl : depLookup m n with
      | some l =>
        rw [hl] at h
        rcases List.mem_append.mp h with h2 | h2
        · exact Or.inl (by rw [depGet, hl]; exact h2)
        · exact Or.inr (List.mem_singleton.mp h2)
      | none =>
        rw [hl] at h
        cases h
    · rw [if_neg hn] at h
      exact Or.inl h
  · rw [depGet, depLookup_append_single] at h
    cases hl : depLookup m n with
    | some l =>
      rw [hl] at h
      exact Or.inl (by rw [depGet, hl]; exact h)
    | none =>
      rw [hl] at h
      by_cases hn : n = k
      · rw [if_pos hn] at h
        simp only [Option.or, Option.getD_some] at h
        exact Or.inr (List.mem_singleton.mp h)
      · rw [if_neg hn] at h
        cases h

theorem self_mem_degKeys_degAdd (m : DegMap) (k : String) (d : Int) :
    k ∈ degKeys (degAdd m k d) := by
  rw [degKeys_degAdd]
  split
  · exact (degLookup_isSome_iff_mem m k).mp (by assumption)
  · exact List.mem_append_right _ (List.mem_singleton.mpr rfl)

theorem mem_degKeys_degAdd_of_mem (m : DegMap) (k : String) (d : Int)
    (x : String) (h : x ∈ degKeys m) : x ∈ degKeys (degAdd m k d) := by
  rw [degKeys_degAdd]
  split
  · exact h
  · exact List.mem_append_left _ h

theorem mem_degKeys_degSetdefault_of_mem (m : DegMap) (k : String)
    (x : String) (h : x ∈ degKeys m) : x ∈ degKeys (degSetdefault m k) := by
  rw [degKeys_degSetdefault]
  split
  · exact h
  · exact List.mem_append_left _ h

/-- The invariant established by the graph-building loop: label keys are
distinct, all in-degrees are non-negative, and every recorded dependent
is a known label key. -/
def buildInv (deg : DegMap) (dep : DepMap) : Prop :=
  (degKeys deg).Nodup ∧
  (∀ k, 0 ≤ (degLookup deg k).getD 0) ∧
  (∀ n c, c ∈ depGet dep n → c ∈ degKeys deg)

theorem buildEdgeStep_inv (checks : List Check) (lbl : String)
    (acc : DegMap × DepMap) (d : String) (h : buildInv acc.1 acc.2) :
    buildInv (buildEdgeStep checks lbl acc d).1
      (buildEdgeStep checks lbl acc d).2 := by
  obtain ⟨hnd, hge, hdep⟩ := h
  unfold buildEdgeStep
  split
  · refine ⟨?_, ?_, ?_⟩
    · show (degKeys (degAdd acc.1 lbl 1)).Nodup
      rw [degKeys_degAdd]
      split
      · exact hnd
      · refine List.Nodup.append hnd (List.nodup_singleton _) ?_
        intro x hx hx2
        rw [List.mem_singleton.mp hx2] at hx
        exact absurd ((degLookup_isSome_iff_mem acc.1 lbl).mpr hx)
          (by assumption)
    · intro k
      by_cases hk : k = lbl
      · rw [hk, degLookup_degAdd_self]
        have := hge lbl
        simp only [Option.getD_some]
        omega
      · rw [degLookup_degAdd_other _ _ _ _ hk]
        exact hge k
    · intro n c hc
      rcases depGet_depAppend_sub acc.2 d lbl n c hc with h2 | h2
      · exact mem_degKeys_degAdd_of_mem _ _ _ _ (hdep n c h2)
      · rw [h2]
        exact self_mem_degKeys_degAdd _ _ _
  · exact ⟨hnd, hge, hdep⟩

theorem buildItemStep_inv (checks : List Check) (acc : DegMap × DepMap)
    (c : Check) (h : buildInv acc.1 acc.2) :
    buildInv (buildItemStep checks acc c).1 (buildItemStep checks acc c).2 := by
  obtain ⟨hnd, hge, hdep⟩ := h
  have hseed : buildInv (degSetdefault acc.1 c.label) acc.2 := by
    refine ⟨?_, ?_, ?_⟩
    · rw [degKeys_degSetdefault]
      split
      · exact hnd
      · refine List.Nodup.append hnd (List.nodup_singleton _) ?_
        intro x hx hx2
        rw [List.mem_singleton.mp hx2] at hx
        exact absurd ((degLookup_isSome_iff_mem acc.1 c.label).mpr hx)
          (by assumption)
    · intro k
      rw [degLookup_degSetdefault]
      split
      · exact hge k
      · cases hl : degLookup acc.1 k with
        | some v => have := hge k; rw [hl] at this; simpa [hl] using this
        | none =>
          by_cases hk : k = c.label <;> simp [hl, hk]
    · intro n x hx
      exact mem_degKeys_degSetdefault_of_mem _ _ _ (hdep n x hx)
  unfold buildItemStep
  have hgen : ∀ (deps : List String) (acc1 : DegMap × DepMap),
      buildInv acc1.1 acc1.2 →
      buildInv (deps.foldl (buildEdgeStep checks c.label) acc1).1
        (deps.foldl (buildEdgeStep checks c.label) acc1).2 := by
    intro deps
    induction deps with
    | nil => exact fun acc1 h => h
    | cons d rest ih =>
      intro acc1 h
      simp only [List.foldl]
      exact ih _ (buildEdgeStep_inv checks c.label acc1 d h)
  exact hgen c.depends (degSetdefault acc.1 c.label, acc.2) hseed

theorem buildGraph_inv (checks : List Check) :
    buildInv (buildGraph checks).1 (buildGraph checks).2 := by
  unfold buildGraph
  have h0 : buildInv ([] : DegMap) ([] : DepMap) := by
    refine ⟨List.nodup_nil, fun k => by simp [degLookup], fun n c hc => ?_⟩
    simp [depGet, depLookup] at hc
  have hgen : ∀ (cs : List Check) (acc0 : DegMap × DepMap),
      buildInv acc0.1 acc0.2 →
      buildInv (cs.foldl (buildItemStep checks) acc0).1
        (cs.foldl (buildItemStep checks) acc0).2 := by
    intro cs
    induction cs with
    | nil => exact fun acc0 h => h
    | cons c rest ih =>
      intro acc0 h
      simp only [List.foldl]
      exact ih _ (buildItemStep_inv checks acc0 c h)
  exact hgen checks ([], []) h0

/-- The invariant of the Kahn loop: key set fixed, visited and queued
labels distinct and disjoint, and a label's remaining in-degree is
non-positive exactly when it has been visited or queued. -/
def kinv (K : List String) (deg : DegMap) (queue visited : List String) : Prop :=
  degKeys deg = K ∧
  visited.Nodup ∧ queue.Nodup ∧
  (∀ x ∈ visited, x ∉ queue) ∧
  (∀ x ∈ visited, x ∈ K) ∧
  (∀ x ∈ queue, x ∈ K) ∧
  (∀ x, x ∈ visited ∨ x ∈ queue → (degLookup deg x).getD 0 ≤ 0) ∧
  (∀ x ∈ K, (degLookup deg x).getD 0 ≤ 0 → x ∈ visited ∨ x ∈ queue)

theorem kahnChildStep_inv (K : List String) (visited : List String)
    (deg : DegMap) (queue : List String) (c : String) (hcK : c ∈ K)
    (hinv : kinv K deg queue visited) :
    kinv K (kahnChildStep (deg, queue) c).1 (kahnChildStep (deg, queue) c).2
      visited := by
  obtain ⟨hkeys, hvn, hqn, hdisj, hvsub, hqsub, hmemle, hlemem⟩ := hinv
  have hcPresent : (degLookup deg c).isSome = true :=
    (degLookup_isSome_iff_mem deg c).mpr (by rw [hkeys]; exact hcK)
  obtain ⟨v, hv⟩ := Option.isSome_iff_exists.mp hcPresent
  have hkeys2 : degKeys (degAdd deg c (-1)) = K := by
    rw [degKeys_degAdd, if_pos hcPresent]
    exact hkeys
  have hself : degLookup (degAdd deg c (-1)) c = some (v + (-1)) := by
    rw [degLookup_degAdd_self, hv]
    rfl
  have hother : ∀ x, ¬ x = c →
      degLookup (degAdd deg c (-1)) x = degLookup deg x :=
    fun x hx => degLookup_degAdd_other deg c (-1) x hx
  unfold kahnChildStep
  dsimp only
  by_cases hzero : (degLookup (degAdd deg c (-1)) c).getD 0 = 0
  · rw [if_pos hzero]
    have hv1 : v = 1 := by
      rw [hself] at hzero
      simp only [Option.getD_some] at hzero
      omega
    have hcnotv : c ∉ visited := by
      intro h
      have := hmemle c (Or.inl h)
      rw [hv] at this
      simp only [Option.getD_some] at this
      omega
    have hcnotq : c ∉ queue := by
      intro h
      have := hmemle c (Or.inr h)
      rw [hv] at this
      simp only [Option.getD_some] at this
      omega
    refine ⟨hkeys2, hvn, ?_, ?_, hvsub, ?_, ?_, ?_⟩
    · refine List.Nodup.append hqn (List.nodup_singleton _) ?_
      intro x hx hx2
      rw [List.mem_singleton.mp hx2] at hx
      exact hcnotq hx
    · intro x hxv hxq
      rcases List.mem_append.mp hxq with h | h
      · exact hdisj x hxv h
      · rw [List.mem_singleton.mp h] at hxv
        exact hcnotv hxv
    · intro x hx
      rcases List.mem_append.mp hx with h | h
      · exact hqsub x h
      · rw [List.mem_singleton.mp h]
        exact hcK
    · intro x hx
      by_cases hxc : x = c
      · rw [hxc, hself]
        simp only [Option.getD_some]
        omega
      · rw [hother x hxc]
        apply hmemle
        rcases hx with h | h
        · exact Or.inl h
        · rcases List.mem_append.mp h with h2 | h2
          · exact Or.inr h2
          · exact absurd (List.mem_singleton.mp h2) hxc
    · intro x hxK _
      by_cases hxc : x = c
      · rw [hxc]
        exact Or.inr (List.mem_append_right _ (List.mem_singleton.mpr rfl))
      · rename_i hle
        rw [hother x hxc] at hle
        rcases hlemem x hxK hle with h | h
        · exact Or.inl h
        · exact Or.inr (List.mem_append_left _ h)
  · rw [if_neg hzero]
    refine ⟨hkeys2, hvn, hqn, hdisj, hvsub, hqsub, ?_, ?_⟩
    · intro x hx
      by_cases hxc : x = c
      · rw [hxc, hself]
        have := hmemle c (hxc ▸ hx)
        rw [hv] at this
        simp only [Option.getD_some] at this ⊢
        omega
      · rw [hother x hxc]
        exact hmemle x hx
    · intro x hxK hle
      by_cases hxc : x = c
      · rw [hxc] at hle ⊢
        rw [hself] at hle hzero
        simp only [Option.getD_some] at hle hzero
        have hvle : v ≤ 0 := by omega
        apply hlemem c hcK
        rw [hv]
        simpa using hvle
      · rw [hother x hxc] at hle
        exact hlemem x hxK hle

theorem kahnChildFold_inv (K : List String) (visited : List String) :
    ∀ (children : List String), (∀ x ∈ children, x ∈ K) →
    ∀ (deg : DegMap) (queue : List String), kinv K deg queue visited →
    kinv K (children.foldl kahnChildStep (deg, queue)).1
      (children.foldl kahnChildStep (deg, queue)).2 visited := by
  intro children
  induction children with
  | nil => exact fun _ deg queue h => h
  | cons c rest ih =>
    intro hsub deg queue hinv
    simp only [List.foldl]
    have h1 := kahnChildStep_inv K visited deg queue c
      (hsub c (List.mem_cons_self _ _)) hinv
    exact ih (fun x hx => hsub x (List.mem_cons_of_mem _ hx))
      (kahnChildStep (deg, queue) c).1 (kahnChildStep (deg, queue) c).2 h1

theorem kahnLoop_spec (dep : DepMap) (K : List String) (hK : K.Nodup)
    (hdep : ∀ n c, c ∈ depGet dep n → c ∈ K) :
    ∀ (fuel : Nat) (queue : List String) (deg : DegMap)
      (visited : List String),
    kinv K deg queue visited →
    K.length + 1 ≤ fuel + visited.length →
    degKeys (kahnLoop dep fuel queue deg visited).2 = K ∧
    (kahnLoop dep fuel queue deg visited).1.Nodup ∧
    (∀ x ∈ K,
      ((degLookup (kahnLoop dep fuel queue deg visited).2 x).getD 0 ≤ 0 ↔
        x ∈ (kahnLoop dep fuel queue deg visited).1)) := by
  intro fuel
  induction fuel with
  | zero =>
    intro queue deg visited hinv hle
    exfalso
    obtain ⟨_, hvn, _, _, hvsub, _, _, _⟩ := hinv
    have : visited.length ≤ K.length :=
      (hvn.subperm (fun x hx => hvsub x hx)).length_le
    omega
  | succ fuel ih =>
    intro queue deg visited hinv hle
    obtain ⟨hkeys, hvn, hqn, hdisj, hvsub, hqsub, hmemle, hlemem⟩ := hinv
    cases queue with
    | nil =>
      refine ⟨hkeys, hvn, ?_⟩
      intro x hxK
      constructor
      · intro hle2
        rcases hlemem x hxK hle2 with h | h
        · exact h
        · cases h
      · intro hx
        exact hmemle x (Or.inl hx)
    | cons node rest =>
      have hnodeK : node ∈ K := hqsub node (List.mem_cons_self _ _)
      have hnodenv : node ∉ visited :=
        fun h => hdisj node h (List.mem_cons_self _ _)
      have hqn2 := List.nodup_cons.mp hqn
      have hmid : kinv K deg rest (visited ++ [node]) := by
        refine ⟨hkeys, ?_, hqn2.2, ?_, ?_,
          fun x hx => hqsub x (List.mem_cons_of_mem _ hx), ?_, ?_⟩
        · refine List.Nodup.append hvn (List.nodup_singleton _) ?_
          intro x hx hx2
          rw [List.mem_singleton.mp hx2] at hx
          exact hnodenv hx
        · intro x hx hx2
          rcases List.mem_append.mp hx with h | h
          · exact hdisj x h (List.mem_cons_of_mem _ hx2)
          · rw [List.mem_singleton.mp h] at hx2
            exact hqn2.1 hx2
        · intro x hx
          rcases List.mem_append.mp hx with h | h
          · exact hvsub x h
          · rw [List.mem_singleton.mp h]
            exact hnodeK
        · intro x hx
          apply hmemle
          rcases hx with h | h
          · rcases List.mem_append.mp h with h2 | h2
            · exact Or.inl h2
            · rw [List.mem_singleton.mp h2]
              exact Or.inr (List.mem_cons_self _ _)
          · exact Or.inr (List.mem_cons_of_mem _ h)
        · intro x hxK hle2
          rcases hlemem x hxK hle2 with h | h
          · exact Or.inl (List.mem_append_left _ h)
          · rcases List.mem_cons.mp h with h2 | h2
            · exact Or.inl (List.mem_append_right _
                (List.mem_singleton.mpr h2))
            · exact Or.inr h2
      have hfold := kahnChildFold_inv K (visited ++ [node]) (depGet dep node)
        (fun x hx => hdep node x hx) deg rest hmid
      rw [show kahnLoop dep (fuel + 1) (node :: rest) deg visited =
          kahnLoop dep fuel ((depGet dep node).foldl kahnChildStep (deg, rest)).2
            ((depGet dep node).foldl kahnChildStep (deg, rest)).1
            (visited ++ [node]) from rfl]
      apply ih _ _ _ hfold
      rw [List.length_append, List.length_singleton]
      omega

/-- Over an association list with distinct keys, taking the keys of the
positive-degree entries is filtering the key list by positive lookup. -/
theorem alist_filter_pos_keys :
    ∀ (m : DegMap), (degKeys m).Nodup →
    ((m.filter (fun p => decide (0 < p.2))).map (·.1)) =
      (degKeys m).filter (fun k => decide (0 < (degLookup m k).getD 0)) := by
  intro m
  induction m with
  | nil => intro _; rfl
  | cons p rest ih =>
    intro hn
    have hn2 : p.1 ∉ degKeys rest ∧ (degKeys rest).Nodup :=
      List.nodup_cons.mp hn
    have hhead : degLookup (p :: rest) p.1 = some p.2 := by
      simp [degLookup]
    have htail : (degKeys rest).filter
        (fun k => decide (0 < (degLookup (p :: rest) k).getD 0)) =
        (degKeys rest).filter
          (fun k => decide (0 < (degLookup rest k).getD 0)) := by
      apply List.filter_congr
      intro k hk
      have hne : ¬ p.1 = k := fun he => hn2.1 (he ▸ hk)
      simp [degLookup, hne]
    show ((p :: rest).filter (fun p => decide (0 < p.2))).map (·.1) =
      (p.1 :: degKeys rest).filter
        (fun k => decide (0 < (degLookup (p :: rest) k).getD 0))
    rw [List.filter_cons, List.filter_cons]
    by_cases hp : 0 < p.2
    · rw [if_pos (by simpa using hp), if_pos (by simp [hhead, hp])]
      rw [List.map_cons, htail, ih hn2.2]
    · rw [if_neg (by simpa using hp), if_neg (by simp [hhead, hp])]
      rw [htail, ih hn2.2]

/-- Claim C8: cycle detection runs Kahn's algorithm over edges whose
dependency target is a declared label; when the number of visited labels
falls short of the label count, exactly one cycle error is appended,
listing all unvisited labels sorted by name (the full stuck remainder);
the two-node cycle reports both labels, and the acyclic chain reports
nothing. -/
theorem cycle_detection :
    (∀ checks : List Check,
        (visitedLabels checks).length < (graphDeg checks).length →
        validateGraph checks = unknownErrors checks ++
          [cycleError (sortStrings
            ((degKeys (graphDeg checks)).filter
              (fun k => decide (k ∉ visitedLabels checks))))]) ∧
    validateGraph [⟨"a", ["b"]⟩, ⟨"b", ["a"]⟩] =
      ["dependency cycle detected among: a, b"] ∧
    validateGraph [⟨"a", ["b"]⟩, ⟨"b", ["c"]⟩, ⟨"c", []⟩] = [] := by
  refine ⟨?_, by decide, by decide⟩
  intro checks hlt
  obtain ⟨hnd0, hge0, hdepsub0⟩ := buildGraph_inv checks
  have hnd : (degKeys (graphDeg checks)).Nodup := hnd0
  have hge : ∀ k, 0 ≤ (degLookup (graphDeg checks) k).getD 0 := hge0
  have hdepsub : ∀ n c, c ∈ depGet (graphDep checks) n →
      c ∈ degKeys (graphDeg checks) := hdepsub0
  have hinit : kinv (degKeys (graphDeg checks)) (graphDeg checks)
      (initQueue checks) [] := by
    refine ⟨rfl, List.nodup_nil, ?_, by simp, by simp, ?_, ?_, ?_⟩
    · have hsl : ((((graphDeg checks).filter
          (fun p => decide (p.2 = 0))).map (·.1))).Sublist
          ((graphDeg checks).map (·.1)) :=
        (List.filter_sublist (graphDeg checks)).map _
      exact hnd.sublist hsl
    · intro x hx
      obtain ⟨p, hpf, hpx⟩ := List.mem_map.mp hx
      have hpm : p ∈ graphDeg checks := (List.mem_filter.mp hpf).1
      rw [← hpx]
      exact List.mem_map_of_mem _ hpm
    · intro x hx
      rcases hx with h | h
      · cases h
      · obtain ⟨p, hpf, hpx⟩ := List.mem_map.mp h
        obtain ⟨hpm, hp0⟩ := List.mem_filter.mp hpf
        have hp0' : p.2 = 0 := by simpa using hp0
        have : degLookup (graphDeg checks) x = some 0 := by
          rw [← hpx, ← hp0']
          exact degLookup_eq_of_mem_nodup _ _ _ hnd hpm
        rw [this]
        simp
    · intro x hxK hle
      obtain ⟨v, hv⟩ := (mem_degKeys_iff _ x).mp hxK
      have hge2 := hge x
      rw [hv] at hle hge2
      simp only [Option.getD_some] at hle hge2
      have hv0 : v = 0 := by omega
      refine Or.inr ?_
      rw [show initQueue checks = ((graphDeg checks).filter
        (fun p => decide (p.2 = 0))).map (·.1) from rfl]
      refine List.mem_map.mpr ⟨(x, v), ?_, rfl⟩
      rw [List.mem_filter]
      exact ⟨mem_of_degLookup _ _ _ hv, by simp [hv0]⟩
  have hrun : kahnRun checks =
      kahnLoop (graphDep checks) ((graphDeg checks).length + 1)
        (initQueue checks) (graphDeg checks) [] := rfl
  have hlen : (degKeys (graphDeg checks)).length =
      (graphDeg checks).length := by
    simp [degKeys]
  have hspec := kahnLoop_spec (graphDep checks) (degKeys (graphDeg checks))
    hnd hdepsub ((graphDeg checks).length + 1) (initQueue checks)
    (graphDeg checks) [] hinit (by simp [hlen])
  obtain ⟨hkeys2, hvnod, hiff⟩ := hspec
  rw [← hrun] at hkeys2 hiff
  have hfilters :
      (((kahnRun checks).2.filter (fun p => decide (0 < p.2))).map (·.1)) =
        (degKeys (graphDeg checks)).filter
          (fun k => decide (k ∉ visitedLabels checks)) := by
    rw [alist_filter_pos_keys (kahnRun checks).2 (by rw [hkeys2]; exact hnd),
      hkeys2]
    apply List.filter_congr
    intro k hk
    have h1 := hiff k hk
    have h2 : (0 < (degLookup (kahnRun checks).2 k).getD 0) ↔
        (k ∉ visitedLabels checks) := by
      rw [show visitedLabels checks = (kahnRun checks).1 from rfl]
      constructor
      · intro hpos hmem
        have := h1.mpr hmem
        omega
      · intro hmem
        by_contra hnpos
        exact hmem (h1.mp (by omega))
    exact decide_eq_decide.mpr h2
  show validateGraph checks = _
  unfold validateGraph
  dsimp only
  rw [if_pos (by
    rw [show visitedLabels checks = (kahnRun checks).1 from rfl] at hlt
    exact hlt)]
  rw [hfilters]

/-- Witness for C8 at the two-node cycle. -/
theorem cycle_detection_witness :
    validateGraph [⟨"a", ["b"]⟩, ⟨"b", ["a"]⟩] =
      unknownErrors [⟨"a", ["b"]⟩, ⟨"b", ["a"]⟩] ++
        [cycleError (sortStrings
          ((degKeys (graphDeg [⟨"a", ["b"]⟩, ⟨"b", ["a"]⟩])).filter
            (fun k =>
              decide (k ∉ visitedLabels [⟨"a", ["b"]⟩, ⟨"b", ["a"]⟩]))))] :=
  cycle_detection.1 [⟨"a", ["b"]⟩, ⟨"b", ["a"]⟩] (by decide)

end Settings
